import Mathlib

/-!
Verification of the tree.hh n-ary tree container (src/src/tree.hh).

Shallow embedding: the pointer graph of `tree_node_` records
(`parent`, `first_child`, `last_child`, `prev_sibling`, `next_sibling`)
is represented by an inductive forest `List (TNode α)`; a live node is
addressed by a list of sibling indices (the path of `first_child`/
`next_sibling` hops from `head->next_sibling`).  For a valid node at
address `a`:
  * `first_child` is null  ⟺  the node's child list is empty, and
    otherwise points to `a ++ [0]`;
  * `next_sibling` is null ⟺ the node is the last child of a non-root
    parent; for the last root-level node `next_sibling` is the `feet`
    sentinel (never null), and for other nodes it points to the address
    with the last index incremented;
  * `prev_sibling` is null or `head` ⟺ the last index is `0`
    (at root level the first root's `prev_sibling` is the `head`
    sentinel, deeper a first child's `prev_sibling` is null);
  * `parent` is null ⟺ the address has length 1 (root level),
    otherwise it points to the address with the last index dropped.
Iterators are embedded as addresses, with the `feet` sentinel made
explicit where an operation can reach it.  The `TREE_HH_EXTRA` build is
the active build (the header unconditionally defines the macro), so the
bookkeeping fields (`count` on every node and on `head`) are modelled
where a claim depends on them.
-/

set_option maxHeartbeats 1000000

namespace TreeHH

/-- A `tree_node_<T>`: the stored payload plus the list of children
(the `first_child`/`next_sibling` chain). -/
inductive TNode (α : Type) : Type where
  | mk : α → List (TNode α) → TNode α

variable {α : Type}

def TNode.val : TNode α → α
  | .mk v _ => v

def TNode.children : TNode α → List (TNode α)
  | .mk _ cs => cs

@[simp] theorem TNode.val_mk (v : α) (cs : List (TNode α)) : (TNode.mk v cs).val = v := rfl

@[simp] theorem TNode.children_mk (v : α) (cs : List (TNode α)) :
    (TNode.mk v cs).children = cs := rfl

mutual

/-- Number of nodes in a subtree. -/
def sizeT : TNode α → Nat
  | .mk _ cs => 1 + sizeF cs

def sizeF : List (TNode α) → Nat
  | [] => 0
  | t :: ts => sizeT t + sizeF ts

end

/-- An address: the list of sibling indices leading from the root level
to a node.  Valid node addresses are nonempty. -/
abbrev Addr := List Nat

/-- Node lookup inside one subtree; `[]` addresses the subtree's own
root node. -/
def getAtT : TNode α → Addr → Option (TNode α)
  | t, [] => some t
  | t, i :: rest =>
    match t.children.get? i with
    | none => none
    | some c => getAtT c rest

/-- Node lookup in a forest; addresses are nonempty, the head index
selects the root. -/
def getAt : List (TNode α) → Addr → Option (TNode α)
  | _, [] => none
  | F, i :: rest =>
    match F.get? i with
    | none => none
    | some t => getAtT t rest

def validAddr (F : List (TNode α)) (a : Addr) : Prop := (getAt F a).isSome

instance (F : List (TNode α)) (a : Addr) : Decidable (validAddr F a) := by
  unfold validAddr; infer_instance

/-- `number_of_children` of the node at `a` (0 when `a` is not valid). -/
def childCount (F : List (TNode α)) (a : Addr) : Nat :=
  match getAt F a with
  | none => 0
  | some t => t.children.length

/-- Payload of the node at `a`. -/
def valAt (F : List (TNode α)) (a : Addr) : Option α := (getAt F a).map TNode.val

mutual

/-- Pre-order address listing of one subtree, addresses relative to the
subtree root (`[]` is the root itself). -/
def paT : TNode α → List Addr
  | .mk _ cs => [] :: paF cs 0

/-- Pre-order address listing of a forest, with the given index for its
first root. -/
def paF : List (TNode α) → Nat → List Addr
  | [], _ => []
  | t :: ts, i => (paT t).map (fun p => i :: p) ++ paF ts (i + 1)

end

/-- All node addresses of a forest, in pre-order. -/
def preAddrs (F : List (TNode α)) : List Addr := paF F 0

/-- Increment the last index of an address (the `next_sibling` hop). -/
def bumpLast : Addr → Addr
  | [] => []
  | [i] => [i + 1]
  | i :: rest => i :: bumpLast rest

/-- The climb of `pre_order_iterator::operator++` (the branch taken when
there is no first child to descend into, and the whole of
`next_skip_children`): walk up while `next_sibling` is null, then move
to the next sibling.  `none` is the `feet` sentinel, which is reached
(rather than a null parent) because at root level `next_sibling` is
never null — the last root points at `feet`. -/
def climbNext (F : List (TNode α)) : Addr → Option Addr
  | [] => none
  | [i] => if i + 1 < F.length then some [i + 1] else none
  | i :: j :: rest =>
    if validAddr F (bumpLast (i :: j :: rest)) then some (bumpLast (i :: j :: rest))
    else climbNext F (i :: j :: rest).dropLast
termination_by a => a.length
decreasing_by
  simp [List.length_dropLast]

/-- `pre_order_iterator::operator++` with the skip flag clear: descend
into the first child when present, otherwise climb. -/
def preInc (F : List (TNode α)) (a : Addr) : Option Addr :=
  if 0 < childCount F a then some (a ++ [0]) else climbNext F a

/-- `tree::begin()`: the node after `head`, i.e. the first root;
`none` is `feet` (the empty tree). -/
def beginRef (F : List (TNode α)) : Option Addr :=
  if F.isEmpty then none else some [0]

/-! ### Basic lemmas about the address model -/

theorem sizeT_pos (t : TNode α) : 0 < sizeT t := by
  cases t with
  | mk v cs => simp [sizeT]

@[simp] theorem getAtT_nil (t : TNode α) : getAtT t [] = some t := rfl

theorem getAtT_cons (t : TNode α) (i : Nat) (p : Addr) :
    getAtT t (i :: p) = match t.children.get? i with
      | none => none
      | some c => getAtT c p := rfl

theorem getAt_cons (F : List (TNode α)) (i : Nat) (p : Addr) :
    getAt F (i :: p) = match F.get? i with
      | none => none
      | some t => getAtT t p := rfl

theorem getAtT_eq_getAt_children (t : TNode α) (p : Addr) (hp : p ≠ []) :
    getAtT t p = getAt t.children p := by
  cases p with
  | nil => exact absurd rfl hp
  | cons i rest => rfl

theorem getAt_cons_zero (t : TNode α) (ts : List (TNode α)) (p : Addr) :
    getAt (t :: ts) (0 :: p) = getAtT t p := rfl

theorem getAt_cons_succ (t : TNode α) (ts : List (TNode α)) (i : Nat) (p : Addr) :
    getAt (t :: ts) ((i + 1) :: p) = getAt ts (i :: p) := rfl

theorem validAddr_cons_zero (t : TNode α) (ts : List (TNode α)) (p : Addr) :
    validAddr (t :: ts) (0 :: p) ↔ (getAtT t p).isSome := by
  simp [validAddr, getAt_cons_zero]

theorem validAddr_cons_succ (t : TNode α) (ts : List (TNode α)) (i : Nat) (p : Addr) :
    validAddr (t :: ts) ((i + 1) :: p) ↔ validAddr ts (i :: p) := by
  simp [validAddr, getAt_cons_succ]

theorem validAddr_singleton (F : List (TNode α)) (i : Nat) :
    validAddr F [i] ↔ i < F.length := by
  induction F generalizing i with
  | nil => simp [validAddr, getAt]
  | cons t ts ih =>
    cases i with
    | zero => simp [validAddr, getAt_cons_zero]
    | succ j => simpa [validAddr_cons_succ, validAddr] using ih j

/-- Increment the head index of an address (re-indexing under a dropped
first root). -/
def bumpHead : Addr → Addr
  | [] => []
  | i :: p => (i + 1) :: p

theorem bumpLast_cons (i : Nat) (j : Nat) (rest : List Nat) :
    bumpLast (i :: j :: rest) = i :: bumpLast (j :: rest) := rfl

theorem bumpLast_bumpHead (i : Nat) (p : Addr) (hp : p ≠ []) :
    bumpLast (bumpHead (i :: p)) = bumpHead (bumpLast (i :: p)) := by
  cases p with
  | nil => exact absurd rfl hp
  | cons j rest => rfl

theorem dropLast_cons_cons (i j : Nat) (rest : List Nat) :
    (i :: j :: rest).dropLast = i :: (j :: rest).dropLast := by
  simp [List.dropLast]

/-! ### The pre-order address list -/

theorem paT_def (v : α) (cs : List (TNode α)) :
    paT (TNode.mk v cs) = [] :: paF cs 0 := by
  rw [paT]

theorem paF_cons (t : TNode α) (ts : List (TNode α)) (i : Nat) :
    paF (t :: ts) i = (paT t).map (fun p => i :: p) ++ paF ts (i + 1) := by
  rw [paF]

theorem paT_ne_nil (t : TNode α) : paT t ≠ [] := by
  cases t with
  | mk v cs => rw [paT_def]; simp

theorem mem_paF_ne_nil (F : List (TNode α)) (i : Nat) :
    ∀ a ∈ paF F i, a ≠ [] := by
  induction F generalizing i with
  | nil => intro a ha; simp [paF] at ha
  | cons t ts ih =>
    intro a ha
    rw [paF_cons] at ha
    rcases List.mem_append.mp ha with h | h
    · rcases List.mem_map.mp h with ⟨p, _, rfl⟩
      simp
    · exact ih (i + 1) a h

theorem paF_succ (F : List (TNode α)) (i : Nat) :
    paF F (i + 1) = (paF F i).map bumpHead := by
  induction F generalizing i with
  | nil => simp [paF]
  | cons t ts ih =>
    rw [paF_cons, paF_cons, List.map_append, List.map_map, ih (i + 1)]
    congr 1

@[simp] theorem sizeF_nil : sizeF ([] : List (TNode α)) = 0 := rfl

@[simp] theorem sizeF_cons (t : TNode α) (ts : List (TNode α)) :
    sizeF (t :: ts) = sizeT t + sizeF ts := by rw [sizeF]

@[simp] theorem sizeT_mk (v : α) (cs : List (TNode α)) :
    sizeT (TNode.mk v cs) = 1 + sizeF cs := by rw [sizeT]

theorem length_paF (F : List (TNode α)) (i : Nat) : (paF F i).length = sizeF F := by
  match F with
  | [] => simp [paF]
  | (TNode.mk v cs) :: ts =>
    have h1 := length_paF cs 0
    have h2 := length_paF ts (i + 1)
    rw [paF_cons, paT_def]
    simp [h1, h2]
    omega
termination_by sizeF F
decreasing_by
  · simp; omega
  · have := sizeT_pos (TNode.mk v cs)
    simp only [sizeF_cons]
    omega

theorem length_preAddrs (F : List (TNode α)) : (preAddrs F).length = sizeF F :=
  length_paF F 0

theorem preAddrs_cons (t : TNode α) (ts : List (TNode α)) :
    preAddrs (t :: ts) =
      ([0] :: (preAddrs t.children).map (fun p => 0 :: p)) ++ (preAddrs ts).map bumpHead := by
  cases t with
  | mk v cs =>
    show paF _ 0 = _
    rw [paF_cons, paT_def, paF_succ]
    rfl

theorem head_preAddrs (F : List (TNode α)) (h : F ≠ []) : (preAddrs F).head? = some [0] := by
  cases F with
  | nil => exact absurd rfl h
  | cons t ts => rw [preAddrs_cons]; rfl

theorem mem_preAddrs_ne_nil (F : List (TNode α)) : ∀ a ∈ preAddrs F, a ≠ [] :=
  mem_paF_ne_nil F 0

theorem mem_preAddrs (F : List (TNode α)) (a : Addr) :
    a ∈ preAddrs F ↔ validAddr F a := by
  match F with
  | [] =>
    simp [preAddrs, paF]
    cases a <;> simp [validAddr, getAt]
  | (TNode.mk v cs) :: ts =>
    have ih1 := fun p => mem_preAddrs cs p
    have ih2 := fun p => mem_preAddrs ts p
    rw [preAddrs_cons]
    constructor
    · intro ha
      rcases List.mem_cons.mp ha with rfl | ha
      · simp [validAddr, getAt_cons_zero]
      rcases List.mem_append.mp ha with h | h
      · rcases List.mem_map.mp h with ⟨p, hp, rfl⟩
        have hne := mem_preAddrs_ne_nil _ p hp
        have := (ih1 p).mp hp
        rw [validAddr_cons_zero, getAtT_eq_getAt_children _ _ hne]
        exact this
      · rcases List.mem_map.mp h with ⟨b, hb, rfl⟩
        have hne := mem_preAddrs_ne_nil _ b hb
        have := (ih2 b).mp hb
        cases b with
        | nil => exact absurd rfl hne
        | cons i p =>
          rw [show bumpHead (i :: p) = (i + 1) :: p from rfl, validAddr_cons_succ]
          exact this
    · intro hv
      match a with
      | [] => simp [validAddr, getAt] at hv
      | 0 :: p =>
        match p with
        | [] => exact List.mem_cons_self _ _
        | q :: rest =>
          rw [validAddr_cons_zero, getAtT_eq_getAt_children _ _ (by simp)] at hv
          have := (ih1 (q :: rest)).mpr hv
          apply List.mem_cons_of_mem
          apply List.mem_append_left
          exact List.mem_map.mpr ⟨q :: rest, this, rfl⟩
      | (i + 1) :: p =>
        rw [validAddr_cons_succ] at hv
        have := (ih2 (i :: p)).mpr hv
        apply List.mem_cons_of_mem
        apply List.mem_append_right
        exact List.mem_map.mpr ⟨i :: p, this, rfl⟩
termination_by sizeF F
decreasing_by
  · simp; omega
  · have := sizeT_pos (TNode.mk v cs)
    simp only [sizeF_cons]
    omega

/-! ### Unfolding lemmas for the climb -/

theorem climbNext_singleton (F : List (TNode α)) (i : Nat) :
    climbNext F [i] = if i + 1 < F.length then some [i + 1] else none := by
  rw [climbNext]

theorem climbNext_cons_cons (F : List (TNode α)) (i j : Nat) (rest : List Nat) :
    climbNext F (i :: j :: rest) =
      if validAddr F (bumpLast (i :: j :: rest)) then some (bumpLast (i :: j :: rest))
      else climbNext F ((i :: j :: rest).dropLast) := by
  rw [climbNext]

theorem childCount_cons_zero (t : TNode α) (ts : List (TNode α)) (p : Addr) (hp : p ≠ []) :
    childCount (t :: ts) (0 :: p) = childCount t.children p := by
  rw [childCount, childCount, getAt_cons_zero, getAtT_eq_getAt_children _ _ hp]

theorem childCount_cons_zero_nil (t : TNode α) (ts : List (TNode α)) :
    childCount (t :: ts) [0] = t.children.length := by
  rw [childCount, getAt_cons_zero, getAtT_nil]

theorem childCount_cons_succ (t : TNode α) (ts : List (TNode α)) (i : Nat) (p : Addr) :
    childCount (t :: ts) ((i + 1) :: p) = childCount ts (i :: p) := by
  rw [childCount, childCount, getAt_cons_succ]

/-- Climbing below the first root of `t :: ts` is climbing inside the
forest `t.children`, except that escaping past the children falls back
to the climb from the root `[0]` itself. -/
theorem climbNext_cons_zero (t : TNode α) (ts : List (TNode α)) (p : Addr) (hp : p ≠ []) :
    climbNext (t :: ts) (0 :: p) =
      match climbNext t.children p with
      | some q => some (0 :: q)
      | none => climbNext (t :: ts) [0] := by
  match p with
  | [j] =>
    rw [climbNext_cons_cons, climbNext_singleton]
    have hval : validAddr (t :: ts) (bumpLast [0, j]) ↔ j + 1 < t.children.length := by
      show validAddr (t :: ts) (0 :: [j + 1]) ↔ _
      rw [validAddr_cons_zero, getAtT_eq_getAt_children _ _ (by simp)]
      exact validAddr_singleton t.children (j + 1)
    by_cases h : j + 1 < t.children.length
    · rw [if_pos (hval.mpr h), if_pos h]
      rfl
    · rw [if_neg (fun hc => h (hval.mp hc)), if_neg h]
      simp [List.dropLast]
  | j :: k :: rest =>
    rw [climbNext_cons_cons]
    have h1 : bumpLast (0 :: j :: k :: rest) = 0 :: bumpLast (j :: k :: rest) := rfl
    have h2 : ((0 : Nat) :: j :: k :: rest).dropLast = 0 :: (j :: k :: rest).dropLast := by
      simp [List.dropLast]
    have hbl : bumpLast (j :: k :: rest) ≠ [] := by
      rw [bumpLast_cons]; simp
    have hval : validAddr (t :: ts) (bumpLast (0 :: j :: k :: rest)) ↔
        validAddr t.children (bumpLast (j :: k :: rest)) := by
      rw [h1, validAddr_cons_zero, getAtT_eq_getAt_children _ _ hbl]
      exact Iff.rfl
    rw [climbNext_cons_cons t.children j k rest]
    by_cases h : validAddr t.children (bumpLast (j :: k :: rest))
    · rw [if_pos (hval.mpr h), if_pos h, h1]
    · rw [if_neg (fun hc => h (hval.mp hc)), if_neg h, h2]
      have hdl : (j :: k :: rest).dropLast ≠ [] := by
        cases rest <;> simp [List.dropLast]
      exact climbNext_cons_zero t ts (j :: k :: rest).dropLast hdl
termination_by p.length
decreasing_by
  simp [List.length_dropLast]

/-- Climbing inside the later roots `ts` of `t :: ts` is the same climb
with the root index shifted by one. -/
theorem climbNext_bumpHead (t : TNode α) (ts : List (TNode α)) (a : Addr) (ha : a ≠ []) :
    climbNext (t :: ts) (bumpHead a) = (climbNext ts a).map bumpHead := by
  match a with
  | [i] =>
    show climbNext (t :: ts) [i + 1] = _
    rw [climbNext_singleton, climbNext_singleton]
    by_cases h : i + 1 < ts.length
    · rw [if_pos h, if_pos (by simp; omega)]
      rfl
    · rw [if_neg h, if_neg (by simp; omega)]
      rfl
  | i :: j :: rest =>
    show climbNext (t :: ts) ((i + 1) :: j :: rest) = _
    rw [climbNext_cons_cons, climbNext_cons_cons]
    have h1 : bumpLast ((i + 1) :: j :: rest) = bumpHead (bumpLast (i :: j :: rest)) := by
      rw [bumpLast_cons, bumpLast_cons]
      rfl
    have h2 : ((i + 1) :: j :: rest).dropLast = bumpHead ((i :: j :: rest).dropLast) := by
      rw [dropLast_cons_cons, dropLast_cons_cons]
      rfl
    have hbl : bumpLast (i :: j :: rest) = i :: bumpLast (j :: rest) := bumpLast_cons i j rest
    have hval : validAddr (t :: ts) (bumpLast ((i + 1) :: j :: rest)) ↔
        validAddr ts (bumpLast (i :: j :: rest)) := by
      rw [h1, hbl]
      show validAddr (t :: ts) ((i + 1) :: bumpLast (j :: rest)) ↔ _
      exact validAddr_cons_succ t ts i (bumpLast (j :: rest))
    by_cases h : validAddr ts (bumpLast (i :: j :: rest))
    · rw [if_pos (hval.mpr h), if_pos h, h1]
      rfl
    · rw [if_neg (fun hc => h (hval.mp hc)), if_neg h, h2, dropLast_cons_cons]
      exact climbNext_bumpHead t ts (i :: (j :: rest).dropLast) (by simp)
termination_by a.length
decreasing_by
  simp [List.length_dropLast]

/-! ### The pre-order successor follows the pre-order address list -/

theorem preInc_nil (F : List (TNode α)) : preInc F [] = none := by
  rw [preInc, childCount]
  simp [getAt, climbNext]

theorem preInc_cons_zero (t : TNode α) (ts : List (TNode α)) (p : Addr) (hp : p ≠ []) :
    preInc (t :: ts) (0 :: p) =
      match preInc t.children p with
      | some q => some (0 :: q)
      | none => climbNext (t :: ts) [0] := by
  rw [preInc, preInc, childCount_cons_zero t ts p hp]
  by_cases h : 0 < childCount t.children p
  · rw [if_pos h, if_pos h]
    rfl
  · rw [if_neg h, if_neg h]
    exact climbNext_cons_zero t ts p hp

theorem preInc_bumpHead (t : TNode α) (ts : List (TNode α)) (a : Addr) (ha : a ≠ []) :
    preInc (t :: ts) (bumpHead a) = (preInc ts a).map bumpHead := by
  match a with
  | i :: p =>
    rw [preInc, preInc]
    rw [show bumpHead (i :: p) = (i + 1) :: p from rfl, childCount_cons_succ]
    by_cases h : 0 < childCount ts (i :: p)
    · rw [if_pos h, if_pos h]
      rfl
    · rw [if_neg h, if_neg h]
      exact climbNext_bumpHead t ts (i :: p) (by simp)

theorem preAddrs_ne_nil (F : List (TNode α)) (h : F ≠ []) : preAddrs F ≠ [] := by
  intro hc
  have := length_preAddrs F
  rw [hc] at this
  cases F with
  | nil => exact h rfl
  | cons t ts =>
    have := sizeT_pos t
    simp at *
    omega

/-- The pre-order successor function steps through `preAddrs F` in
order, and yields `none` (the `feet` sentinel) at its last element. -/
theorem chain_preAddrs (F : List (TNode α)) :
    List.Chain' (fun x y => preInc F x = some y) (preAddrs F) ∧
      ∀ l ∈ (preAddrs F).getLast?, preInc F l = none := by
  match F with
  | [] =>
    constructor
    · simp [preAddrs, paF]
    · intro l hl
      simp [preAddrs, paF] at hl
  | (TNode.mk v cs) :: ts =>
    have ihc := chain_preAddrs cs
    have iht := chain_preAddrs ts
    set t := TNode.mk v cs with ht
    have hchildren : t.children = cs := rfl
    have impl1 : ∀ p q : Addr, preInc cs p = some q →
        preInc (t :: ts) (0 :: p) = some (0 :: q) := by
      intro p q h
      by_cases hp : p = []
      · rw [hp, preInc_nil] at h
        exact absurd h (by simp)
      · rw [preInc_cons_zero t ts p hp, hchildren, h]
    have impl2 : ∀ a b : Addr, preInc ts a = some b →
        preInc (t :: ts) (bumpHead a) = some (bumpHead b) := by
      intro a b h
      by_cases ha : a = []
      · rw [ha, preInc_nil] at h
        exact absurd h (by simp)
      · rw [preInc_bumpHead t ts a ha, h]
        rfl
    have hfeet : climbNext (t :: ts) [0] =
        if 1 < ts.length + 1 then some [1] else none := by
      rw [climbNext_singleton]
      rfl
    have hchain1 : List.Chain' (fun x y => preInc (t :: ts) x = some y)
        ((preAddrs cs).map (fun p => 0 :: p)) := by
      apply List.chain'_map_of_chain' _ _ ihc.1
      intro a b h
      exact impl1 a b h
    have hchain2 : List.Chain' (fun x y => preInc (t :: ts) x = some y)
        ((preAddrs ts).map bumpHead) := by
      apply List.chain'_map_of_chain' _ _ iht.1
      intro a b h
      exact impl2 a b h
    have hlast1 : ∀ x ∈ ((preAddrs cs).map (fun p => 0 :: p)).getLast?,
        preInc (t :: ts) x = climbNext (t :: ts) [0] := by
      intro x hx
      rw [List.getLast?_map] at hx
      rcases Option.map_eq_some'.mp (Option.mem_def.mp hx) with ⟨lc, hlc, rfl⟩
      have hlcne : lc ≠ [] :=
        mem_preAddrs_ne_nil cs lc (List.mem_of_mem_getLast? (Option.mem_def.mpr hlc))
      rw [preInc_cons_zero t ts lc hlcne, hchildren, ihc.2 lc (Option.mem_def.mpr hlc)]
    have hrootstep : 0 < cs.length →
        preInc (t :: ts) [0] = some [0, 0] := by
      intro h
      rw [preInc, childCount_cons_zero_nil, hchildren, if_pos h]
      rfl
    have hrootclimb : cs.length = 0 →
        preInc (t :: ts) [0] = climbNext (t :: ts) [0] := by
      intro h
      rw [preInc, childCount_cons_zero_nil, hchildren, h]
      simp
    constructor
    · rw [preAddrs_cons, hchildren]
      apply List.Chain'.append
      · rw [List.chain'_cons']
        refine ⟨?_, hchain1⟩
        intro y hy
        rw [List.head?_map] at hy
        rcases Option.map_eq_some'.mp (Option.mem_def.mp hy) with ⟨hd, hhd, rfl⟩
        have hcsne : cs ≠ [] := by
          intro hc
          rw [hc] at hhd
          simp [preAddrs, paF] at hhd
        rw [head_preAddrs cs hcsne] at hhd
        simp at hhd
        rw [← hhd]
        exact hrootstep (by cases cs with | nil => exact absurd rfl hcsne | cons => simp)
      · exact hchain2
      · intro x hx y hy
        rw [List.head?_map] at hy
        rcases Option.map_eq_some'.mp (Option.mem_def.mp hy) with ⟨hd, hhd, rfl⟩
        have hts : ts ≠ [] := by
          intro hc
          rw [hc] at hhd
          simp [preAddrs, paF] at hhd
        rw [head_preAddrs ts hts] at hhd
        simp at hhd
        have hfeet1 : climbNext (t :: ts) [0] = some [1] := by
          rw [hfeet, if_pos (by cases ts with | nil => exact absurd rfl hts | cons => simp)]
        have hy1 : bumpHead hd = [1] := by rw [← hhd]; rfl
        rw [hy1]
        rcases hcs : cs with _ | ⟨c, cs'⟩
        · have : x = [0] := by
            rw [hcs] at hx
            simp [preAddrs, paF] at hx
            exact hx.symm
          rw [this, hrootclimb (by rw [hcs]; rfl), hfeet1]
        · rw [show ([0] :: (preAddrs cs).map (fun p => 0 :: p)) =
              [[0]] ++ (preAddrs cs).map (fun p => 0 :: p) from rfl] at hx
          rw [List.getLast?_append_of_ne_nil _ ?hne] at hx
          case hne =>
            have := preAddrs_ne_nil cs (by rw [hcs]; simp)
            simpa using this
          rw [hlast1 x hx, hfeet1]
    · intro l hl
      rw [preAddrs_cons, hchildren] at hl
      by_cases hts0 : ts = []
      · subst hts0
        have hmap2 : (preAddrs ([] : List (TNode α))).map bumpHead = [] := by
          simp [preAddrs, paF]
        rw [hmap2, List.append_nil] at hl
        have hclimb0 : climbNext (t :: ([] : List (TNode α))) [0] = none := by
          rw [climbNext_singleton]
          simp
        by_cases hcs0 : cs = []
        · have hmap1 : (preAddrs cs).map (fun p => 0 :: p) = [] := by
            rw [hcs0]; simp [preAddrs, paF]
          rw [hmap1] at hl
          simp at hl
          rw [← hl, hrootclimb (by rw [hcs0]; rfl)]
          exact hclimb0
        · rw [show ([0] :: (preAddrs cs).map (fun p => 0 :: p)) =
              [[0]] ++ (preAddrs cs).map (fun p => 0 :: p) from rfl] at hl
          rw [List.getLast?_append_of_ne_nil _ ?hne3] at hl
          case hne3 =>
            have := preAddrs_ne_nil cs hcs0
            simpa using this
          rw [hlast1 l hl]
          exact hclimb0
      · rw [List.getLast?_append_of_ne_nil _ ?hne2] at hl
        case hne2 =>
          have := preAddrs_ne_nil ts hts0
          simpa using this
        rw [List.getLast?_map] at hl
        rcases Option.map_eq_some'.mp (Option.mem_def.mp hl) with ⟨lt, hlt, rfl⟩
        have hltne : lt ≠ [] :=
          mem_preAddrs_ne_nil ts lt (List.mem_of_mem_getLast? (Option.mem_def.mpr hlt))
        rw [preInc_bumpHead t ts lt hltne, iht.2 lt (Option.mem_def.mpr hlt)]
        rfl
termination_by sizeF F
decreasing_by
  · simp; omega
  · have := sizeT_pos (TNode.mk v cs)
    simp only [sizeF_cons]
    omega

/-! ### Walking the pre-order successor to the end -/

/-- The loop of the non-cached `size()` (the `#else` branch of
`tree::size`): starting from an iterator, count `operator++` steps until
the iterator equals `end()` (`feet`, modelled as `none`).  The fuel
argument bounds the loop; wrappers pass enough fuel for the loop to run
to completion on any tree. -/
def countSteps (F : List (TNode α)) : Nat → Option Addr → Nat
  | _, none => 0
  | 0, some _ => 0
  | fuel + 1, some a => countSteps F fuel (preInc F a) + 1

theorem countSteps_of_chain (F : List (TNode α)) :
    ∀ l : List Addr, List.Chain' (fun x y => preInc F x = some y) l →
      (∀ x ∈ l.getLast?, preInc F x = none) →
      ∀ fuel, l.length ≤ fuel → countSteps F fuel l.head? = l.length := by
  intro l
  induction l with
  | nil =>
    intro _ _ fuel _
    cases fuel <;> rfl
  | cons a rest ih =>
    intro hch hlast fuel hfuel
    match fuel with
    | 0 => simp at hfuel
    | f + 1 =>
      show countSteps F f (preInc F a) + 1 = rest.length + 1
      cases rest with
      | nil =>
        rw [hlast a rfl]
        cases f <;> rfl
      | cons b rest' =>
        have hab : preInc F a = some b := (List.chain'_cons.mp hch).1
        rw [hab]
        have := ih (List.chain'_cons.mp hch).2
          (by
            intro x hx
            apply hlast
            rwa [List.getLast?_cons_cons])
          f (by simpa using hfuel)
        simpa using this

theorem beginRef_eq_head (F : List (TNode α)) : beginRef F = (preAddrs F).head? := by
  cases F with
  | nil => rfl
  | cons t ts =>
    rw [head_preAddrs (t :: ts) (by simp)]
    rfl

/-- Walking `operator++` from `begin()` to `end()` makes exactly one step
per node of the tree. -/
theorem countSteps_begin (F : List (TNode α)) (fuel : Nat) (hfuel : sizeF F ≤ fuel) :
    countSteps F fuel (beginRef F) = sizeF F := by
  have h := chain_preAddrs F
  rw [beginRef_eq_head]
  rw [← length_preAddrs F] at hfuel ⊢
  exact countSteps_of_chain F (preAddrs F) h.1 h.2 fuel hfuel

/-! ### The `equal` / `equal_subtree` walk -/

/-- `getAt` distributes over a one-step address extension. -/
theorem getAt_cons_append_singleton (F : List (TNode α)) (i : Nat) (rest : Addr) (j : Nat) :
    getAt F ((i :: rest) ++ [j]) =
      match getAt F (i :: rest) with
      | none => none
      | some t => match t.children.get? j with
        | none => none
        | some c => some c := by
  induction rest generalizing F i with
  | nil =>
    rw [List.cons_append, getAt_cons, getAt_cons]
    cases hF : F.get? i with
    | none => rfl
    | some t =>
      dsimp only
      show getAtT t [j] = _
      rw [getAtT_cons]
      rfl
  | cons k rest' ih =>
    rw [List.cons_append, getAt_cons, getAt_cons]
    cases hF : F.get? i with
    | none => rfl
    | some t =>
      dsimp only
      rw [getAtT_eq_getAt_children t ((k :: rest') ++ [j]) (by simp),
        getAtT_eq_getAt_children t (k :: rest') (by simp)]
      exact ih t.children k

theorem getAt_append_singleton (F : List (TNode α)) (a : Addr) (ha : a ≠ []) (j : Nat) :
    getAt F (a ++ [j]) =
      match getAt F a with
      | none => none
      | some t => match t.children.get? j with
        | none => none
        | some c => some c := by
  match a with
  | [] => exact absurd rfl ha
  | i :: rest => exact getAt_cons_append_singleton F i rest j

theorem validAddr_append_zero (F : List (TNode α)) (a : Addr) (t : TNode α)
    (hv : getAt F a = some t) (hc : 0 < t.children.length) : validAddr F (a ++ [0]) := by
  match a with
  | [] =>
    rw [show getAt F [] = none from rfl] at hv
    exact absurd hv (by simp)
  | i :: rest =>
    rw [validAddr, getAt_cons_append_singleton F i rest 0, hv]
    dsimp only
    cases hg : t.children.get? 0 with
    | none =>
      rw [List.get?_eq_none] at hg
      omega
    | some c => rfl

/-- The conversion of `tree::begin(pos)` (a sibling iterator) to a
pre-order iterator inside `tree::equal`: the first child when the node
has children; otherwise the sibling end iterator resolves to the parent
with `skip_children` set and is incremented, i.e. the climb. -/
def beginChildren (F : List (TNode α)) (a : Addr) : Option Addr :=
  if 0 < childCount F a then some (a ++ [0]) else climbNext F a

/-- The loop of `tree::equal(one, two, three, fun)`: while `one` differs
from the end position and `three` is valid, compare values and child
counts and advance both pre-order iterators; when the loop exits, the
ranges compared equal.  `none` on an iterator is the `feet` sentinel;
the result is `none` when the fuel runs out or an invalid iterator is
dereferenced (undefined behaviour in the source). -/
def equalAux (F₁ F₂ : List (TNode α)) (fn : α → α → Bool) (tgt : Option Addr) :
    Nat → Option Addr → Option Addr → Option Bool
  | 0, _, _ => none
  | fuel + 1, one, three =>
    if one = tgt then some true
    else if three = none then some true
    else
      match one, three with
      | some a1, some a3 =>
        match getAt F₁ a1, getAt F₂ a3 with
        | some t1, some t3 =>
          if fn t1.val t3.val = false then some false
          else if t1.children.length ≠ t3.children.length then some false
          else equalAux F₁ F₂ fn tgt fuel (preInc F₁ a1) (preInc F₂ a3)
        | _, _ => none
      | _, _ => none

/-- `tree::equal_subtree(one, two, fun)`: compare the two root values and
child counts, then run `equal` over the children ranges.  The `two`
comparison target of the inner loop is the skip-children successor of
`a₁` (see `pre_order_iterator(const sibling_iterator&)`). -/
def equal_subtree (F₁ F₂ : List (TNode α)) (fn : α → α → Bool) (a₁ a₂ : Addr) :
    Option Bool :=
  match getAt F₁ a₁, getAt F₂ a₂ with
  | some t1, some t2 =>
    if fn t1.val t2.val = false then some false
    else if t1.children.length ≠ t2.children.length then some false
    else equalAux F₁ F₂ fn (climbNext F₁ a₁) (sizeF F₁ + 2)
      (beginChildren F₁ a₁) (beginChildren F₂ a₂)
  | _, _ => none

theorem equalAux_lockstep (F : List (TNode α)) (fn : α → α → Bool)
    (href : ∀ x : α, fn x x = true) :
    ∀ l : List Addr, List.Chain' (fun x y => preInc F x = some y) l →
      (∀ x ∈ l.getLast?, preInc F x = none) →
      (∀ x ∈ l, validAddr F x) →
      ∀ a ∈ l, ∀ (tgt : Option Addr) (fuel : Nat), l.length + 1 ≤ fuel →
        equalAux F F fn tgt fuel (some a) (some a) = some true := by
  intro l
  induction l with
  | nil =>
    intro _ _ _ a ha
    simp at ha
  | cons c rest ih =>
    intro hch hlast hvalid a ha tgt fuel hfuel
    rcases List.mem_cons.mp ha with rfl | ha'
    · match fuel with
      | f + 1 =>
        show equalAux F F fn tgt (f + 1) (some a) (some a) = some true
        rw [equalAux]
        by_cases htgt : some a = tgt
        · rw [if_pos htgt]
        rw [if_neg htgt, if_neg (by simp)]
        have hv := hvalid a (List.mem_cons_self _ _)
        rw [validAddr] at hv
        cases hg : getAt F a with
        | none => rw [hg] at hv; simp at hv
        | some t =>
          simp only [hg]
          rw [href t.val]
          simp only [Bool.true_eq_false, if_false, ne_eq, not_true_eq_false, ite_not,
            if_pos rfl]
          cases rest with
          | nil =>
            rw [hlast a rfl]
            match f with
            | f' + 1 =>
              by_cases h2 : (none : Option Addr) = tgt
              · simp [equalAux, h2]
              · simp [equalAux, h2]
          | cons b rest' =>
            have hab : preInc F a = some b := (List.chain'_cons.mp hch).1
            rw [hab]
            apply ih (List.chain'_cons.mp hch).2
              (by
                intro x hx
                apply hlast
                rwa [List.getLast?_cons_cons])
              (by
                intro x hx
                exact hvalid x (List.mem_cons_of_mem _ hx))
              b (List.mem_cons_self _ _) tgt f (by simpa using hfuel)
    · cases rest with
      | nil => simp at ha'
      | cons b rest' =>
        apply ih (List.chain'_cons.mp hch).2
          (by
            intro x hx
            apply hlast
            rwa [List.getLast?_cons_cons])
          (by
            intro x hx
            exact hvalid x (List.mem_cons_of_mem _ hx))
          a ha' tgt fuel (by simp at hfuel ⊢; omega)

/-! ### Iterator references that can denote the `feet` sentinel -/

/-- A node pointer that is either a live tree node or the `feet`
sentinel (reachable as `next_sibling` of the last root). -/
inductive NodeRef : Type where
  | addr : Addr → NodeRef
  | feet : NodeRef
deriving DecidableEq

/-- The two error classes of §7: a failed `assert` (fatal abort) and a
thrown `std::range_error` (catchable). -/
inductive TreeErr : Type where
  | assertFail : TreeErr
  | rangeErr : TreeErr
deriving DecidableEq

/-- `node->next_sibling` as a pointer: null for the last child of a
non-root parent and for `feet`; the `feet` sentinel (never null) after
the last root. -/
def nextRef (F : List (TNode α)) : NodeRef → Option NodeRef
  | .feet => none
  | .addr [] => none
  | .addr [i] => if i + 1 < F.length then some (.addr [i + 1]) else some .feet
  | .addr (i :: j :: rest) =>
    if validAddr F (bumpLast (i :: j :: rest)) then some (.addr (bumpLast (i :: j :: rest)))
    else none

/-- `node->first_child` as a pointer (null when there are no children
and for `feet`). -/
def firstChildRef (F : List (TNode α)) : NodeRef → Option NodeRef
  | .feet => none
  | .addr a => if 0 < childCount F a then some (.addr (a ++ [0])) else none

/-! ### `path_from_iterator` -/

/-- The inner loop of `tree::path_from_iterator`:
`while (walk != top.node && walk->prev_sibling != 0 && walk->prev_sibling != head)
  { ++num; walk = walk->prev_sibling; }`.
For an in-tree node the combined `prev_sibling` guard (null below root
level, `head` at root level) holds exactly when the last index is
positive, so the loop walks the last index down.  Arguments: the parent
part of the walk address and its last index; result: the step count and
the final last index. -/
def countLeft (top : Addr) (pre : Addr) : Nat → Nat × Nat
  | 0 => (0, 0)
  | i + 1 =>
    if pre ++ [i + 1] = top then (0, i + 1)
    else
      let r := countLeft top pre i
      (r.1 + 1, r.2)

/-- The outer do-while of `tree::path_from_iterator`: push the sibling
count of the current level, then step to the parent while the parent is
non-null and the walk has not reached `top`.  (`walk->parent != 0` holds
exactly when the address has length at least 2.)  The fuel is the
address length, which bounds the number of levels. -/
def pfiAux (top : Addr) : Nat → Addr → List Nat → List Nat
  | 0, _, acc => acc
  | fuel + 1, walk, acc =>
    let pre := walk.dropLast
    let r := countLeft top pre (walk.getLastD 0)
    let walk1 := pre ++ [r.2]
    let acc1 := acc ++ [r.1]
    if 2 ≤ walk1.length ∧ walk1 ≠ top then pfiAux top fuel pre acc1 else acc1

/-- `tree::path_from_iterator(iter, top)`: collect per-level sibling
counts bottom-up, then reverse.  (The forest itself is not consulted:
for in-tree nodes every pointer test of the source loop is determined by
the address, see `countLeft` and `pfiAux`.) -/
def path_from_iterator (_F : List (TNode α)) (n top : Addr) : List Nat :=
  (pfiAux top (n.length + 1) n []).reverse

/-! ### `iterator_from_path` -/

/-- The inner `for (i = 0; i < path[step]; ++i)` loop of
`tree::iterator_from_path`: `walk = walk->next_sibling` and throw
`range_error` when the new walk is null. -/
def stepRight (F : List (TNode α)) : Nat → NodeRef → Except TreeErr NodeRef
  | 0, w => .ok w
  | k + 1, w =>
    match nextRef F w with
    | none => .error .rangeErr
    | some w1 => stepRight F k w1

/-- The outer loop of `tree::iterator_from_path`: from the second path
entry on, descend into `walk->first_child` (throwing `range_error` when
null), then take the stated number of sibling steps. -/
def ifpAux (F : List (TNode α)) : List Nat → Bool → NodeRef → Except TreeErr NodeRef
  | [], _, w => .ok w
  | cnt :: restPath, isFirst, w =>
    let step1 : Except TreeErr NodeRef :=
      if isFirst then .ok w
      else
        match firstChildRef F w with
        | none => .error .rangeErr
        | some c => .ok c
    match step1 with
    | .error e => .error e
    | .ok w1 =>
      match stepRight F cnt w1 with
      | .error e => .error e
      | .ok w2 => ifpAux F restPath false w2

/-- `tree::iterator_from_path(path, top)`. -/
def iterator_from_path (F : List (TNode α)) (path : List Nat) (top : Addr) :
    Except TreeErr NodeRef :=
  ifpAux F path true (.addr top)

/-! ### `tree::child` -/

/-- The loop of `tree::child(position, num)`:
`tmp = first_child; while (num--) { assert(tmp != 0); tmp = tmp->next_sibling; }`.
The walk is the current child index (`none` = null pointer); a fired
assert is the fatal error. -/
def childAux (len : Nat) : Nat → Option Nat → Except TreeErr (Option Nat)
  | 0, tmp => .ok tmp
  | k + 1, tmp =>
    match tmp with
    | none => .error .assertFail
    | some i => childAux len k (if i + 1 < len then some (i + 1) else none)

/-- `tree::child(position, num)`: returns the `num`-th child as a
sibling iterator, which may be the null iterator. -/
def tree_child (F : List (TNode α)) (a : Addr) (num : Nat) :
    Except TreeErr (Option Addr) :=
  match getAt F a with
  | none => .error .assertFail
  | some t =>
    match childAux t.children.length num
        (if 0 < t.children.length then some 0 else none) with
    | .error e => .error e
    | .ok tmp => .ok (tmp.map (fun i => a ++ [i]))

/-! ### Tree state with the `TREE_HH_EXTRA` bookkeeping -/

/-- A whole `tree` object in the (always active) `TREE_HH_EXTRA` build:
the root-level sibling chain between the sentinels, each node carrying
its stored value and its `count` field, plus the `count` field stored on
the `head` sentinel.  (`count_expanded`/`count_expandable`/flags are not
modelled; no claim depends on them.) -/
structure TreeState (α : Type) : Type where
  roots : List (TNode (α × Nat))
  headCount : Nat

/-- A freshly allocated node: `tree_node_` constructor sets `count = 0`. -/
def newNode (x : α) : TNode (α × Nat) := .mk (x, 0) []

/-- Replace the `i`-th entry of a sibling chain by the image under `g`
(pointer write into the chain). -/
def modifyNth (g : TNode β → TNode β) : List (TNode β) → Nat → List (TNode β)
  | [], _ => []
  | t :: ts, 0 => g t :: ts
  | t :: ts, i + 1 => t :: modifyNth g ts i

/-- Rebuild the node at an address by applying `f` to it (pointer write
into the node graph). -/
def modifyF : List (TNode β) → Addr → (TNode β → TNode β) → List (TNode β)
  | F, [], _ => F
  | F, [i], f => modifyNth f F i
  | F, i :: j :: rest, f =>
    modifyNth (fun t => TNode.mk t.val (modifyF t.children (j :: rest) f)) F i

/-- The strict ancestor chain of an address: immediate parent first,
then on up to the root level (`node->parent` walk). -/
def ancChain : Addr → List Addr
  | [] => []
  | [_] => []
  | i :: j :: rest => (i :: j :: rest).dropLast :: ancChain ((i :: j :: rest).dropLast)
termination_by a => a.length
decreasing_by
  simp [List.length_dropLast]

/-- `++parent->count` on one node. -/
def bumpCount (t : TNode (α × Nat)) : TNode (α × Nat) :=
  .mk (t.val.1, t.val.2 + 1) t.children

/-- The `TREE_HH_EXTRA` block shared by `append_child`/`insert`:
`while (parent) { ...; ++parent->count; parent = parent->parent; }`
followed by `++head->count` — one increment per ancestor of the new
node, plus one on `head`. -/
def bumpAncestors (F : List (TNode (α × Nat))) (ancs : List Addr) :
    List (TNode (α × Nat)) :=
  ancs.foldl (fun Fc p => modifyF Fc p bumpCount) F

/-- `tree::append_child(position, x)` (the `const T&` overload, lines
1469–1525): allocate, link as new last child, then propagate the
bookkeeping increments up the ancestor chain and onto `head`. -/
def append_child (S : TreeState α) (a : Addr) (x : α) : TreeState α :=
  let roots1 := modifyF S.roots a (fun t => .mk t.val (t.children ++ [newNode x]))
  ⟨bumpAncestors roots1 (a :: ancChain a), S.headCount + 1⟩

/-- `tree::prepend_child(position, x)` (the `const T&` overload, lines
1555–1584): allocate and link as new first child.  The source contains
no `TREE_HH_EXTRA` bookkeeping block in this function: no `count` field
anywhere is updated. -/
def prepend_child (S : TreeState α) (a : Addr) (x : α) : TreeState α :=
  ⟨modifyF S.roots a (fun t => .mk t.val (newNode x :: t.children)), S.headCount⟩

/-- An insertion position for `tree::insert(iter, x)`: a null
(default-constructed) iterator, the `feet` sentinel, or a live node. -/
inductive InsPos : Type where
  | nullIt : InsPos
  | feetIt : InsPos
  | node : Addr → InsPos
deriving DecidableEq

/-- Splice a new node into the sibling chain immediately before the
node at `a` (the pointer surgery of `tree::insert`). -/
def insertBeforeAddr : List (TNode β) → Addr → TNode β → List (TNode β)
  | F, [], _ => F
  | F, [i], n => F.take i ++ n :: F.drop i
  | [], _ :: _ :: _, _ => []
  | t :: ts, 0 :: j :: rest, n =>
    TNode.mk t.val (insertBeforeAddr t.children (j :: rest) n) :: ts
  | t :: ts, (i + 1) :: j :: rest, n => t :: insertBeforeAddr ts (i :: j :: rest) n
termination_by F a _ => (a.length, F.length)
decreasing_by
  · simp
    omega
  · simp
    omega

/-- `tree::insert(position, x)` (the `const T&` overload, lines
1686–1744).  A null iterator is re-pointed at `feet`
("Backward compatibility: when calling insert on a null node, insert
before the feet"); inserting before `feet` appends a new last root.
Returns the new state and an iterator to the inserted node.  The
`TREE_HH_EXTRA` block increments `count` on every ancestor and on
`head`. -/
def tree_insert (S : TreeState α) (pos : InsPos) (x : α) : TreeState α × Addr :=
  let pos1 := match pos with
    | .nullIt => InsPos.feetIt
    | p => p
  match pos1 with
  | .feetIt => (⟨S.roots ++ [newNode x], S.headCount + 1⟩, [S.roots.length])
  | .node a =>
    let roots1 := insertBeforeAddr S.roots a (newNode x)
    (⟨bumpAncestors roots1 (ancChain a), S.headCount + 1⟩, a)
  | .nullIt => (S, [])

/-- `tree::size()` in the `TREE_HH_EXTRA` build (lines 2778–2793):
`return head->count;`. -/
def tree_size (S : TreeState α) : Nat := S.headCount

/-- `tree::move_out(source)` for a root-level source (lines 2388–2411):
repoint the fresh tree's sentinels at the source node, close the sibling
links of the source's former neighbours, and return the fresh tree.  No
`count` field of either tree is touched; the fresh tree's
`head_initialise_` sets `head->count = 0`.  Returns
(modified original tree, extracted tree). -/
def move_out (S : TreeState α) (i : Nat) : TreeState α × TreeState α :=
  (⟨S.roots.take i ++ S.roots.drop (i + 1), S.headCount⟩,
   ⟨match S.roots.get? i with
     | some t => [t]
     | none => [], 0⟩)

/-- The walk of `tree::move_in_as_nth_child` over the destination child
list: for `n = 0` link the other tree's root chain before the first
child; otherwise walk `n - 1` children forward, throwing `range_error`
when the walk runs off the chain, and link after the walk node. -/
def spliceNth (new : List (TNode β)) : List (TNode β) → Nat → Except TreeErr (List (TNode β))
  | cs, 0 => .ok (new ++ cs)
  | [], _ + 1 => .error .rangeErr
  | c :: cs, n + 1 =>
    match spliceNth new cs n with
    | .error e => .error e
    | .ok r => .ok (c :: r)

/-- `tree::move_in_as_nth_child(loc, n, other)` (lines 2460–2527): when
`other` is empty return unchanged; otherwise splice `other`'s root chain
in as the `n`-th child of `loc` and empty `other`.  No `count` field is
updated.  Returns (this tree, other tree). -/
def move_in_as_nth_child (S : TreeState α) (loc : Addr) (n : Nat) (other : TreeState α) :
    Except TreeErr (TreeState α × TreeState α) :=
  if other.roots.isEmpty then .ok (S, other)
  else
    match getAt S.roots loc with
    | none => .error .assertFail
    | some t =>
      match spliceNth other.roots t.children n with
      | .error e => .error e
      | .ok cs1 =>
        .ok (⟨modifyF S.roots loc (fun u => .mk u.val cs1), S.headCount⟩,
          ⟨[], other.headCount⟩)

mutual

/-- Invariant 4 of the spec for one node: the conceptual
`subtree_count` (= stored `count` + 1 for a tree node) equals 1 plus the
sum of the children's `subtree_count`s, i.e. the stored `count` equals
the number of proper descendants. -/
def cntOKT : TNode (α × Nat) → Bool
  | .mk (_, c) cs => (c == sizeF cs) && cntOKF cs

def cntOKF : List (TNode (α × Nat)) → Bool
  | [] => true
  | t :: ts => cntOKT t && cntOKF ts

end

/-- Invariant 4 of the spec for a whole tree: every node's bookkeeping
`count` is the number of its proper descendants and `head->count` is the
total node count. -/
def countOK (S : TreeState α) : Bool :=
  cntOKF S.roots && (S.headCount == sizeF S.roots)

/-! ### `max_depth` -/

/-- `size_t` arithmetic: `--curdepth` with wraparound at 2^64. -/
def decWrap (n : Nat) : Nat := (n + (2 ^ 64 - 1)) % 2 ^ 64

/-- `node->parent` as a pointer (null for root-level nodes and for the
sentinels). -/
def parentRef : NodeRef → Option NodeRef
  | .feet => none
  | .addr [] => none
  | .addr [_] => none
  | .addr (i :: j :: rest) => some (.addr ((i :: j :: rest).dropLast))

/-- The climb of `tree::max_depth(pos)`:
`do { tmp = tmp->parent; if (tmp == 0) return maxdepth; --curdepth; }
while (tmp->next_sibling == 0);`.
Result: `some none` when the function returns (`tmp == 0`), and
`some (some (tmp, curdepth))` when a node with a non-null `next_sibling`
is reached; `none` when the fuel runs out. -/
def mdClimb (F : List (TNode α)) : Nat → NodeRef → Nat → Option (Option (NodeRef × Nat))
  | 0, _, _ => none
  | fuel + 1, tmp, cur =>
    match parentRef tmp with
    | none => some none
    | some t1 =>
      let cur1 := decWrap cur
      match nextRef F t1 with
      | some _ => some (some (t1, cur1))
      | none => mdClimb F fuel t1 cur1

/-- `first_child == 0` test on a node reference. -/
def childlessRef (F : List (TNode α)) : NodeRef → Bool
  | .feet => true
  | .addr a => childCount F a == 0

/-- The body of `tree::max_depth(const iterator_base&)` (lines
2891–2931): walk the bottom of the tree, tracking `curdepth`/`maxdepth`
as `size_t` values.  `none` when the fuel runs out (wrappers supply
enough for the concrete evaluations below). -/
def mdAux (F : List (TNode α)) (pos : Addr) : Nat → NodeRef → Nat → Nat → Option Nat
  | 0, _, _, _ => none
  | fuel + 1, tmp, cur, maxd =>
    if childlessRef F tmp then
      if tmp = .addr pos then some maxd
      else
        match (match nextRef F tmp with
          | none => mdClimb F (fuel + 1) tmp cur
          | some _ => some (some (tmp, cur))) with
        | none => none
        | some none => some maxd
        | some (some (t1, cur1)) =>
          if t1 = .addr pos then some maxd
          else
            match nextRef F t1 with
            | none => none
            | some t2 => mdAux F pos fuel t2 cur1 maxd
    else
      match tmp with
      | .feet => none
      | .addr a =>
        mdAux F pos fuel (.addr (a ++ [0])) ((cur + 1) % 2 ^ 64)
          (Nat.max ((cur + 1) % 2 ^ 64) maxd)

/-- `tree::max_depth(pos)` for a valid node address (the
null/`head`/`feet` guard returning `(size_t)-1` does not apply). -/
def max_depth_node (F : List (TNode α)) (pos : Addr) : Option Nat :=
  mdAux F pos ((sizeF F + 2) * (sizeF F + 2) + 2) (.addr pos) 0 0

/-- `tree::max_depth()` (lines 2880–2889): `size_t maxd = -1;` then
`maxd = std::max(maxd, max_depth(it))` over every root. -/
def max_depth_tree (F : List (TNode α)) : Option Nat :=
  (List.range F.length).foldl
    (fun acc i =>
      match acc with
      | none => none
      | some m =>
        match max_depth_node F [i] with
        | none => none
        | some d => some (Nat.max m d))
    (some (2 ^ 64 - 1))

/-! ### `filter` -/

/-- The ancestor walk inside `tree::filter` when a node is visible:
`while (parent) { if (!parent->visible) { parent->visible = true; ... } ... }`.
Every ancestor's `visible` flag ends up `true`; the `count_*` updates in
the loop do not feed back into any `visible` flag and are elided.  The
visibility state is the map from addresses to `visible` flags. -/
def forceAnc (vis : Addr → Bool) : List Addr → (Addr → Bool)
  | [] => vis
  | p :: ps =>
    forceAnc (fun x => if x = p then true else vis x) ps

/-- One iteration of the `tree::filter(comp)` loop (lines 2656–2702):
evaluate the predicate on the current node, store it as the node's
`visible` flag, and if visible walk the ancestor chain forcing every
ancestor visible. -/
def filter_visit (comp : α → Bool) (F : List (TNode α)) (vis : Addr → Bool) (a : Addr) :
    Addr → Bool :=
  match getAt F a with
  | none => vis
  | some t =>
    let visible := comp t.val
    let vis1 : Addr → Bool := fun x => if x = a then visible else vis x
    if visible then forceAnc vis1 (ancChain a) else vis1

/-- `tree::filter(comp)`: the pre-order iterator loop from `begin()` to
`end()` visits exactly the addresses of `preAddrs` in order (the chain
theorem above), performing `filter_visit` at each node. -/
def tree_filter (comp : α → Bool) (F : List (TNode α)) (vis0 : Addr → Bool) :
    Addr → Bool :=
  (preAddrs F).foldl (filter_visit comp F) vis0

/-- `y` sits strictly below `x` (a proper descendant). -/
def strictDesc (x y : Addr) : Prop := ∃ s : List Nat, s ≠ [] ∧ y = x ++ s

/-! ### `sort` -/

/-- One `std::multiset::insert`: the C++ standard places a new element
at the upper bound of its equivalence class, i.e. after every element
`y` with `¬comp(x, y)` and before the first `y` with `comp(x, y)`. -/
def msInsert (cmp : β → β → Bool) (x : β) : List β → List β
  | [] => [x]
  | y :: ys => if cmp x y then x :: y :: ys else y :: msInsert cmp x ys

/-- The `while (it != to) { nodes.insert(it.node); ++it; }` loop of
`tree::sort`: fold the sibling range into the multiset in left-to-right
order. -/
def msort (cmp : β → β → Bool) (l : List β) : List β :=
  l.foldl (fun s x => msInsert cmp x s) []

/-- `tree::compare_nodes`: compare two nodes by applying the caller's
ordering to their stored data. -/
def compare_nodes (cmp : β → β → Bool) (a b : TNode β) : Bool := cmp a.val b.val

/-- `tree::sort(from, to, comp, deep=false)` at the sibling-chain level:
the reassembly loop (lines 2589–2633) rewrites the `prev`/`next` links
so that the sibling chain between the range's former neighbours `prev`
and `next` is exactly the multiset order, repairing the parent's
`first_child`/`last_child` when the range starts/ends the child list.
With `pre`/`post` the siblings before/after the range, the resulting
child list is `pre ++ msort (compare_nodes cmp) mid ++ post`; the nodes
are relinked whole, so each keeps its own `first_child`/`last_child`
chain (its subtree) untouched. -/
def tree_sort (cmp : β → β → Bool) (pre mid post : List (TNode β)) : List (TNode β) :=
  pre ++ msort (compare_nodes cmp) mid ++ post

/-- Two values the strict weak ordering treats as equivalent. -/
def equivB (cmp : β → β → Bool) (v y : β) : Bool := !cmp v y && !cmp y v

/-! ### Lemmas: `path_from_iterator` -/

theorem countLeft_stop (top pre : Addr) (h : ∀ k : Nat, pre ++ [k] ≠ top) :
    ∀ i : Nat, countLeft top pre i = (i, 0) := by
  intro i
  induction i with
  | zero => rfl
  | succ n ih =>
    rw [countLeft, if_neg (h (n + 1)), ih]

theorem countLeft_top (top pre : Addr) (i : Nat) (h : pre ++ [i] = top) :
    countLeft top pre i = (0, i) := by
  cases i with
  | zero => rfl
  | succ n => rw [countLeft, if_pos h]

theorem bumpLast_concat (p : Addr) (j : Nat) : bumpLast (p ++ [j]) = p ++ [j + 1] := by
  induction p with
  | nil => rfl
  | cons i p' ih =>
    cases p' with
    | nil => rfl
    | cons k p'' =>
      show bumpLast (i :: ((k :: p'') ++ [j])) = _
      rw [show (k :: p'') ++ [j] = k :: (p'' ++ [j]) from rfl, bumpLast_cons]
      rw [show k :: (p'' ++ [j]) = (k :: p'') ++ [j] from rfl, ih]
      rfl

theorem pfiAux_spec (top : Addr) (htop : top ≠ []) :
    ∀ (rest : Addr) (acc : List Nat) (fuel : Nat), rest.length + 1 ≤ fuel →
      pfiAux top fuel (top ++ rest) acc = acc ++ (rest.reverse ++ [0]) := by
  intro rest
  induction rest using List.reverseRecOn with
  | nil =>
    intro acc fuel hfuel
    match fuel with
    | f + 1 =>
      obtain ⟨p, i, htop_eq⟩ : ∃ p i, top = p ++ [i] := by
        rcases List.eq_nil_or_concat top with h | ⟨p, i, h⟩
        · exact absurd h htop
        · rw [List.concat_eq_append] at h
          exact ⟨p, i, h⟩
      rw [List.append_nil, pfiAux]
      rw [show (top.dropLast : Addr) = p by rw [htop_eq, List.dropLast_concat]]
      rw [show top.getLastD 0 = i by rw [htop_eq, List.getLastD_concat]]
      rw [countLeft_top top p i htop_eq.symm]
      rw [if_neg (by rw [htop_eq]; simp)]
      rfl
  | append_singleton rest' a ih =>
    intro acc fuel hfuel
    match fuel with
    | f + 1 =>
      rw [show top ++ (rest' ++ [a]) = (top ++ rest') ++ [a] by rw [List.append_assoc]]
      rw [pfiAux]
      rw [List.dropLast_concat, List.getLastD_concat]
      rw [countLeft_stop top (top ++ rest')
        (by
          intro k heq
          have := congrArg List.length heq
          simp at this)]
      rw [if_pos ?cond]
      case cond =>
        constructor
        · have : 0 < top.length := List.length_pos.mpr htop
          simp
          omega
        · intro heq
          have := congrArg List.length heq
          simp at this
      rw [ih (acc ++ [(a, 0).1]) f (by simp at hfuel ⊢; omega)]
      simp

theorem path_from_iterator_spec (F : List (TNode α)) (top rest : Addr) (htop : top ≠ []) :
    path_from_iterator F (top ++ rest) top = 0 :: rest := by
  rw [path_from_iterator,
    pfiAux_spec top htop rest [] ((top ++ rest).length + 1) (by simp)]
  simp

/-! ### Lemmas: `iterator_from_path` -/

/-- `getAt` splits across an address concatenation. -/
theorem getAt_append (F : List (TNode α)) (x y : Addr) (hx : x ≠ []) :
    getAt F (x ++ y) =
      match getAt F x with
      | none => none
      | some t => getAtT t y := by
  induction x generalizing F with
  | nil => exact absurd rfl hx
  | cons i x' ih =>
    rw [List.cons_append, getAt_cons, getAt_cons]
    cases hF : F.get? i with
    | none => rfl
    | some t =>
      dsimp only
      cases x' with
      | nil => rfl
      | cons k x'' =>
        rw [getAtT_eq_getAt_children t ((k :: x'') ++ y) (by simp),
          getAtT_eq_getAt_children t (k :: x'') (by simp)]
        exact ih t.children (by simp)

theorem nextRef_long (F : List (TNode α)) (a : Addr) (ha : 2 ≤ a.length) :
    nextRef F (.addr a) =
      if validAddr F (bumpLast a) then some (.addr (bumpLast a)) else none := by
  match a with
  | [] => simp at ha
  | [i] => simp at ha
  | i :: j :: rest => rfl

theorem validAddr_append_le (F : List (TNode α)) (cur : Addr) (hcur : cur ≠ [])
    (m k : Nat) (hk : k ≤ m) (h : validAddr F (cur ++ [m])) :
    validAddr F (cur ++ [k]) := by
  rw [validAddr, getAt_append_singleton F cur hcur] at h ⊢
  cases hg : getAt F cur with
  | none =>
    rw [hg] at h
    simp at h
  | some t =>
    rw [hg] at h
    dsimp only at h ⊢
    cases hm : t.children.get? m with
    | none => rw [hm] at h; simp at h
    | some c =>
      have hmlen : m < t.children.length := by
        by_contra hc
        rw [List.get?_eq_none.mpr (by omega)] at hm
        simp at hm
      cases hk2 : t.children.get? k with
      | none =>
        rw [List.get?_eq_none] at hk2
        omega
      | some c2 => rfl

theorem stepRight_ok (F : List (TNode α)) (cur : Addr) (hcur : cur ≠ []) :
    ∀ (k j : Nat), validAddr F (cur ++ [j + k]) →
      stepRight F k (.addr (cur ++ [j])) = .ok (.addr (cur ++ [j + k])) := by
  intro k
  induction k with
  | zero =>
    intro j _
    rfl
  | succ n ih =>
    intro j h
    rw [stepRight, nextRef_long F (cur ++ [j])
      (by
        have : 0 < cur.length := List.length_pos.mpr hcur
        simp
        omega)]
    rw [bumpLast_concat]
    have hv1 : validAddr F (cur ++ [j + 1]) :=
      validAddr_append_le F cur hcur (j + (n + 1)) (j + 1) (by omega) h
    rw [if_pos hv1]
    dsimp only
    have := ih (j + 1) (by rw [show j + 1 + n = j + (n + 1) from by omega]; exact h)
    rw [show j + 1 + n = j + (n + 1) from by omega] at this
    exact this

theorem ifpAux_cons_false (F : List (TNode α)) (cnt : Nat) (rp : List Nat) (w : NodeRef) :
    ifpAux F (cnt :: rp) false w =
      match firstChildRef F w with
      | none => .error .rangeErr
      | some c =>
        match stepRight F cnt c with
        | .error e => .error e
        | .ok w2 => ifpAux F rp false w2 := by
  cases hfc : firstChildRef F w with
  | none => simp [ifpAux, hfc]
  | some c => simp [ifpAux, hfc]

theorem ifpAux_ok (F : List (TNode α)) :
    ∀ (restPath : List Nat) (cur : Addr), cur ≠ [] → validAddr F (cur ++ restPath) →
      ifpAux F restPath false (.addr cur) = .ok (.addr (cur ++ restPath)) := by
  intro restPath
  induction restPath with
  | nil =>
    intro cur h1 h2
    simp [ifpAux]
  | cons a rp ih =>
    intro cur h1 h2
    rw [validAddr, getAt_append F cur (a :: rp) h1] at h2
    cases hg : getAt F cur with
    | none => rw [hg] at h2; simp at h2
    | some t =>
      rw [hg] at h2
      dsimp only at h2
      rw [getAtT_cons] at h2
      cases hc : t.children.get? a with
      | none => rw [hc] at h2; simp at h2
      | some c =>
        rw [hc] at h2
        have hlen : a < t.children.length := by
          by_contra hcon
          rw [List.get?_eq_none.mpr (by omega)] at hc
          simp at hc
        have hcc : 0 < childCount F cur := by
          rw [childCount, hg]
          dsimp only
          omega
        have hva : validAddr F (cur ++ [a]) := by
          rw [validAddr, getAt_append_singleton F cur h1, hg]
          dsimp only
          rw [hc]
          rfl
        rw [ifpAux_cons_false]
        rw [show firstChildRef F (.addr cur) = some (.addr (cur ++ [0])) from by
          rw [firstChildRef, if_pos hcc]]
        dsimp only
        rw [show stepRight F a (.addr (cur ++ [0])) = .ok (.addr (cur ++ [a])) from by
          have := stepRight_ok F cur h1 a 0 (by simpa using hva)
          simpa using this]
        have hrec := ih (cur ++ [a]) (by simp) (by
          rw [List.append_assoc]
          show validAddr F (cur ++ (a :: rp))
          rw [validAddr, getAt_append F cur (a :: rp) h1, hg]
          dsimp only
          rw [getAtT_cons, hc]
          exact h2)
        dsimp only
        rw [hrec]
        rw [List.append_assoc]
        rfl

/-- Claim C1 core: decoding the encoded path of a node lands back on
the node, for any node below (or equal to) the chosen `top`. -/
theorem round_trip_core (F : List (TNode α)) (top rest : Addr) (htop : top ≠ [])
    (hv : validAddr F (top ++ rest)) :
    iterator_from_path F (path_from_iterator F (top ++ rest) top) top =
      .ok (.addr (top ++ rest)) := by
  rw [path_from_iterator_spec F top rest htop, iterator_from_path]
  have h1 : ifpAux F (0 :: rest) true (.addr top) = ifpAux F rest false (.addr top) := rfl
  rw [h1, ifpAux_ok F rest top htop hv]

/-! ### Lemmas: `sort` -/

section SortLemmas

variable {γ : Type}

theorem mem_msInsert (cmp : γ → γ → Bool) (x z : γ) (s : List γ) :
    z ∈ msInsert cmp x s ↔ z = x ∨ z ∈ s := by
  induction s with
  | nil => simp [msInsert]
  | cons y ys ih =>
    rw [msInsert]
    by_cases h : cmp x y = true
    · rw [if_pos h]
      exact List.mem_cons
    · rw [if_neg h]
      simp only [List.mem_cons, ih]
      tauto

theorem msInsert_perm (cmp : γ → γ → Bool) (x : γ) (s : List γ) :
    (msInsert cmp x s).Perm (x :: s) := by
  induction s with
  | nil => exact List.Perm.refl _
  | cons y ys ih =>
    rw [msInsert]
    by_cases h : cmp x y = true
    · rw [if_pos h]
    · rw [if_neg h]
      exact (ih.cons y).trans (List.Perm.swap x y ys)

theorem msort_perm_aux (cmp : γ → γ → Bool) (l : List γ) :
    ∀ s : List γ, (l.foldl (fun s x => msInsert cmp x s) s).Perm (s ++ l) := by
  induction l with
  | nil =>
    intro s
    simp
  | cons x l' ih =>
    intro s
    show (l'.foldl (fun s x => msInsert cmp x s) (msInsert cmp x s)).Perm _
    refine (ih (msInsert cmp x s)).trans ?_
    refine (List.Perm.append_right l' ((msInsert_perm cmp x s))).trans ?_
    show ((x :: s) ++ l').Perm (s ++ x :: l')
    exact List.perm_middle.symm

theorem msort_perm (cmp : γ → γ → Bool) (l : List γ) : (msort cmp l).Perm l := by
  have := msort_perm_aux cmp l []
  simpa [msort] using this

/-- The order produced by the multiset: no later element is below an
earlier one. -/
def SortedB (cmp : γ → γ → Bool) (l : List γ) : Prop :=
  List.Pairwise (fun a b => cmp b a = false) l

theorem msInsert_sorted (cmp : γ → γ → Bool)
    (hasym : ∀ a b : γ, cmp a b = true → cmp b a = false)
    (htrans : ∀ a b c : γ, cmp a b = true → cmp b c = true → cmp a c = true)
    (x : γ) (s : List γ) (hs : SortedB cmp s) :
    SortedB cmp (msInsert cmp x s) := by
  induction s with
  | nil => simp [msInsert, SortedB]
  | cons y ys ih =>
    rw [msInsert]
    rcases List.pairwise_cons.mp hs with ⟨hy, hys⟩
    by_cases h : cmp x y = true
    · rw [if_pos h]
      refine List.pairwise_cons.mpr ⟨?_, hs⟩
      intro z hz
      rcases List.mem_cons.mp hz with rfl | hz'
      · exact hasym x z h
      · by_contra hzx
        rw [Bool.not_eq_false] at hzx
        have := htrans z x y hzx h
        rw [hy z hz'] at this
        exact absurd this (by simp)
    · rw [if_neg h]
      refine List.pairwise_cons.mpr ⟨?_, ih hys⟩
      intro z hz
      rcases (mem_msInsert cmp x z ys).mp hz with rfl | hz'
      · exact Bool.not_eq_true _ |>.mp h
      · exact hy z hz'

theorem msort_sorted_aux (cmp : γ → γ → Bool)
    (hasym : ∀ a b : γ, cmp a b = true → cmp b a = false)
    (htrans : ∀ a b c : γ, cmp a b = true → cmp b c = true → cmp a c = true)
    (l : List γ) :
    ∀ s : List γ, SortedB cmp s →
      SortedB cmp (l.foldl (fun s x => msInsert cmp x s) s) := by
  induction l with
  | nil =>
    intro s hs
    exact hs
  | cons x l' ih =>
    intro s hs
    exact ih (msInsert cmp x s) (msInsert_sorted cmp hasym htrans x s hs)

theorem msort_sorted (cmp : γ → γ → Bool)
    (hasym : ∀ a b : γ, cmp a b = true → cmp b a = false)
    (htrans : ∀ a b c : γ, cmp a b = true → cmp b c = true → cmp a c = true)
    (l : List γ) : SortedB cmp (msort cmp l) :=
  msort_sorted_aux cmp hasym htrans l [] (by simp [SortedB])

theorem equivB_out (cmp : γ → γ → Bool) (a b : γ) (h : equivB cmp a b = true) :
    cmp a b = false ∧ cmp b a = false := by
  simp only [equivB, Bool.and_eq_true, Bool.not_eq_true'] at h
  exact h

theorem equivB_symm (cmp : γ → γ → Bool) (a b : γ) (h : equivB cmp a b = true) :
    equivB cmp b a = true := by
  rcases equivB_out cmp a b h with ⟨h1, h2⟩
  rw [equivB, h1, h2]
  rfl

/-- In a strict weak ordering, equivalent elements compare alike: if
`x` is below `w` and `z` is equivalent to `x`, then `z` is below `w`. -/
theorem cmp_right_of_equiv (cmp : γ → γ → Bool)
    (htrans : ∀ a b c : γ, cmp a b = true → cmp b c = true → cmp a c = true)
    (hinc : ∀ a b c : γ, equivB cmp a b = true → equivB cmp b c = true →
      equivB cmp a c = true)
    (x z w : γ) (hxw : cmp x w = true)
    (hxz : equivB cmp x z = true) : cmp z w = true := by
  by_contra hzw
  rw [Bool.not_eq_true] at hzw
  by_cases hwz : cmp w z = true
  · have := htrans x w z hxw hwz
    rw [(equivB_out cmp x z hxz).1] at this
    exact absurd this (by simp)
  · rw [Bool.not_eq_true] at hwz
    have hzw2 : equivB cmp z w = true := by rw [equivB, hzw, hwz]; rfl
    have := hinc x z w hxz hzw2
    rw [(equivB_out cmp x w this).1] at hxw
    exact absurd hxw (by simp)

theorem msInsert_filter (cmp : γ → γ → Bool)
    (htrans : ∀ a b c : γ, cmp a b = true → cmp b c = true → cmp a c = true)
    (hinc : ∀ a b c : γ, equivB cmp a b = true → equivB cmp b c = true →
      equivB cmp a c = true)
    (v x : γ) (s : List γ) (hs : SortedB cmp s) :
    (msInsert cmp x s).filter (fun y => equivB cmp v y) =
      if equivB cmp v x = true then s.filter (fun y => equivB cmp v y) ++ [x]
      else s.filter (fun y => equivB cmp v y) := by
  induction s with
  | nil =>
    rw [msInsert]
    by_cases h : equivB cmp v x = true
    · rw [if_pos h]
      simp [List.filter, h]
    · rw [if_neg h]
      simp [List.filter, h]
  | cons y ys ih =>
    rcases List.pairwise_cons.mp hs with ⟨hy, hys⟩
    rw [msInsert]
    by_cases h : cmp x y = true
    · rw [if_pos h]
      by_cases hvx : equivB cmp v x = true
      · have hnone : ∀ z ∈ y :: ys, equivB cmp v z = false := by
          intro z hz
          by_contra hvz
          rw [Bool.not_eq_false] at hvz
          have hxz : equivB cmp x z = true :=
            hinc x v z (equivB_symm cmp v x hvx) hvz
          rcases List.mem_cons.mp hz with rfl | hz'
          · rw [(equivB_out cmp x z hxz).1] at h
            exact absurd h (by simp)
          · have := cmp_right_of_equiv cmp htrans hinc x z y h hxz
            rw [hy z hz'] at this
            exact absurd this (by simp)
        have hfilt : (y :: ys).filter (fun y => equivB cmp v y) = [] := by
          rw [List.filter_eq_nil_iff]
          intro z hz
          rw [hnone z hz]
          simp
        rw [if_pos hvx, hfilt, List.filter_cons, if_pos hvx, hfilt]
        rfl
      · rw [if_neg hvx, List.filter_cons, if_neg hvx]
    · rw [if_neg h]
      by_cases hvx : equivB cmp v x = true
      · by_cases hvy : equivB cmp v y = true
        · simp [List.filter_cons, hvx, hvy, ih hys]
        · simp [List.filter_cons, hvx, hvy, ih hys]
      · by_cases hvy : equivB cmp v y = true
        · simp [List.filter_cons, hvx, hvy, ih hys]
        · simp [List.filter_cons, hvx, hvy, ih hys]

theorem msort_filter_aux (cmp : γ → γ → Bool)
    (hasym : ∀ a b : γ, cmp a b = true → cmp b a = false)
    (htrans : ∀ a b c : γ, cmp a b = true → cmp b c = true → cmp a c = true)
    (hinc : ∀ a b c : γ, equivB cmp a b = true → equivB cmp b c = true →
      equivB cmp a c = true)
    (v : γ) (l : List γ) :
    ∀ s : List γ, SortedB cmp s →
      (l.foldl (fun s x => msInsert cmp x s) s).filter (fun y => equivB cmp v y) =
        s.filter (fun y => equivB cmp v y) ++ l.filter (fun y => equivB cmp v y) := by
  induction l with
  | nil =>
    intro s _
    simp
  | cons x l' ih =>
    intro s hs
    show (l'.foldl (fun s x => msInsert cmp x s) (msInsert cmp x s)).filter _ = _
    rw [ih (msInsert cmp x s) (msInsert_sorted cmp hasym htrans x s hs)]
    rw [msInsert_filter cmp htrans hinc v x s hs]
    by_cases hvx : equivB cmp v x = true
    · rw [if_pos hvx]
      simp [List.filter_cons, hvx]
    · rw [if_neg hvx]
      simp [List.filter_cons, hvx]

/-- Stability of the multiset sort: the subsequence of elements
equivalent to any fixed value is unchanged. -/
theorem msort_filter (cmp : γ → γ → Bool)
    (hasym : ∀ a b : γ, cmp a b = true → cmp b a = false)
    (htrans : ∀ a b c : γ, cmp a b = true → cmp b c = true → cmp a c = true)
    (hinc : ∀ a b c : γ, equivB cmp a b = true → equivB cmp b c = true →
      equivB cmp a c = true)
    (v : γ) (l : List γ) :
    (msort cmp l).filter (fun y => equivB cmp v y) =
      l.filter (fun y => equivB cmp v y) := by
  have := msort_filter_aux cmp hasym htrans hinc v l [] (by simp [SortedB])
  simpa [msort] using this

end SortLemmas

/-! ### Lemmas: `child`, `move_in_as_nth_child` and out-of-range paths -/

theorem childAux_none_spec (len num : Nat) :
    childAux len num none = if num = 0 then .ok none else .error .assertFail := by
  cases num <;> rfl

theorem childAux_some_spec (len : Nat) :
    ∀ (num i : Nat), i < len →
      childAux len num (some i) =
        if i + num < len then .ok (some (i + num))
        else if i + num = len then .ok none
        else .error .assertFail := by
  intro num
  induction num with
  | zero =>
    intro i hi
    rw [if_pos (by omega)]
    rfl
  | succ n ih =>
    intro i hi
    show childAux len n (if i + 1 < len then some (i + 1) else none) = _
    rw [show i + (n + 1) = i + 1 + n from by omega]
    by_cases h1 : i + 1 < len
    · rw [if_pos h1, ih (i + 1) h1]
    · rw [if_neg h1, childAux_none_spec]
      have hieq : i + 1 = len := by omega
      by_cases h2 : n = 0
      · rw [if_pos h2, if_neg (by omega), if_pos (by omega)]
      · rw [if_neg h2, if_neg (by omega), if_neg (by omega)]

/-- `tree::child(position, num)` trichotomy: an in-range index yields
the child, `num` equal to the child count silently yields the null
sibling iterator (no error of any kind), and a larger `num` fires the
`assert` — a fatal abort, not a catchable `range_error`. -/
theorem tree_child_spec (F : List (TNode α)) (a : Addr) (t : TNode α)
    (hg : getAt F a = some t) (num : Nat) :
    tree_child F a num =
      if num < t.children.length then .ok (some (a ++ [num]))
      else if num = t.children.length then .ok none
      else .error .assertFail := by
  rw [tree_child, hg]
  dsimp only
  by_cases hc : 0 < t.children.length
  · rw [if_pos hc, childAux_some_spec t.children.length num 0 hc]
    by_cases h1 : num < t.children.length
    · rw [if_pos (by omega), if_pos h1]
      simp
    · rw [if_neg (by omega), if_neg h1]
      by_cases h2 : num = t.children.length
      · rw [if_pos (by omega), if_pos h2]
        rfl
      · rw [if_neg (by omega), if_neg h2]
  · rw [if_neg hc, childAux_none_spec]
    have hz : t.children.length = 0 := by omega
    by_cases h2 : num = 0
    · rw [if_pos h2, if_neg (by omega), if_pos (by omega)]
      rfl
    · rw [if_neg h2, if_neg (by omega), if_neg (by omega)]

theorem spliceNth_ok (new : List (TNode β)) :
    ∀ (n : Nat) (cs : List (TNode β)), n ≤ cs.length →
      spliceNth new cs n = .ok (cs.take n ++ new ++ cs.drop n) := by
  intro n
  induction n with
  | zero =>
    intro cs _
    simp [spliceNth]
  | succ m ih =>
    intro cs hn
    cases cs with
    | nil => simp at hn
    | cons c cs' =>
      rw [show spliceNth new (c :: cs') (m + 1) = (match spliceNth new cs' m with
        | Except.error e => Except.error e
        | Except.ok r => Except.ok (c :: r)) from rfl]
      rw [ih cs' (by simpa using hn)]
      simp

theorem spliceNth_err (new : List (TNode β)) :
    ∀ (n : Nat) (cs : List (TNode β)), cs.length < n →
      spliceNth new cs n = .error .rangeErr := by
  intro n
  induction n with
  | zero =>
    intro cs h
    simp at h
  | succ m ih =>
    intro cs hn
    cases cs with
    | nil => rfl
    | cons c cs' =>
      rw [show spliceNth new (c :: cs') (m + 1) = (match spliceNth new cs' m with
        | Except.error e => Except.error e
        | Except.ok r => Except.ok (c :: r)) from rfl]
      rw [ih cs' (by simpa using hn)]

/-- `move_in_as_nth_child` behaviour: with a nonempty source tree it
throws the catchable `range_error` exactly when `n` exceeds the child
count, and otherwise splices the source roots in as children
`n, n+1, …`, emptying the source tree (whose stale `head->count` is kept
as the source code keeps it). -/
theorem move_in_as_nth_child_spec (S : TreeState α) (loc : Addr) (t : TNode (α × Nat))
    (hg : getAt S.roots loc = some t) (n : Nat) (other : TreeState α)
    (hne : other.roots ≠ []) :
    (t.children.length < n → move_in_as_nth_child S loc n other = .error .rangeErr) ∧
    (n ≤ t.children.length →
      move_in_as_nth_child S loc n other =
        .ok (⟨modifyF S.roots loc
              (fun u => .mk u.val (t.children.take n ++ other.roots ++ t.children.drop n)),
            S.headCount⟩,
          ⟨[], other.headCount⟩)) := by
  have hemp : other.roots.isEmpty = false := by
    cases h : other.roots with
    | nil => exact absurd h hne
    | cons _ _ => rfl
  constructor
  · intro hlt
    rw [move_in_as_nth_child, hemp, if_neg (by simp : ¬(false = true)), hg]
    dsimp only
    rw [spliceNth_err other.roots n t.children hlt]
  · intro hle
    rw [move_in_as_nth_child, hemp, if_neg (by simp : ¬(false = true)), hg]
    dsimp only
    rw [spliceNth_ok other.roots n t.children hle]

theorem validAddr_append_iff (F : List (TNode α)) (cur : Addr) (hcur : cur ≠ [])
    (t : TNode α) (hg : getAt F cur = some t) (x : Nat) :
    validAddr F (cur ++ [x]) ↔ x < t.children.length := by
  rw [validAddr, getAt_append_singleton F cur hcur, hg]
  dsimp only
  cases hx : t.children.get? x with
  | none =>
    rw [List.get?_eq_none] at hx
    simp
    omega
  | some c =>
    have : x < t.children.length := by
      by_contra hcon
      rw [List.get?_eq_none.mpr (by omega)] at hx
      simp at hx
    simp [this]

theorem stepRight_err (F : List (TNode α)) (cur : Addr) (hcur : cur ≠ [])
    (t : TNode α) (hg : getAt F cur = some t) :
    ∀ (k j : Nat), j < t.children.length → t.children.length ≤ j + k →
      stepRight F k (.addr (cur ++ [j])) = .error .rangeErr := by
  intro k
  induction k with
  | zero =>
    intro j h1 h2
    omega
  | succ m ih =>
    intro j h1 h2
    rw [stepRight, nextRef_long F (cur ++ [j])
      (by
        have : 0 < cur.length := List.length_pos.mpr hcur
        simp
        omega)]
    rw [bumpLast_concat]
    by_cases hv : j + 1 < t.children.length
    · rw [if_pos ((validAddr_append_iff F cur hcur t hg (j + 1)).mpr hv)]
      exact ih (j + 1) hv (by omega)
    · rw [if_neg (fun hc => hv ((validAddr_append_iff F cur hcur t hg (j + 1)).mp hc))]

/-- An oversized sibling step below the `top` level makes
`iterator_from_path` throw the catchable `range_error` (it never clamps):
decoding `[0, k]` from `top` with `k` at or beyond the child count
throws. -/
theorem ifp_oversized (F : List (TNode α)) (top : Addr) (t : TNode α)
    (htop : top ≠ []) (hg : getAt F top = some t) (k : Nat)
    (hk : t.children.length ≤ k) :
    iterator_from_path F [0, k] top = .error .rangeErr := by
  rw [iterator_from_path]
  have h1 : ifpAux F [0, k] true (.addr top) = ifpAux F [k] false (.addr top) := rfl
  rw [h1, ifpAux_cons_false]
  by_cases hc : 0 < childCount F top
  · rw [show firstChildRef F (.addr top) = some (.addr (top ++ [0])) from by
      rw [firstChildRef, if_pos hc]]
    dsimp only
    have hlen : 0 < t.children.length := by
      rw [childCount, hg] at hc
      exact hc
    rw [stepRight_err F top htop t hg k 0 hlen (by omega)]
  · rw [show firstChildRef F (.addr top) = none from by rw [firstChildRef, if_neg hc]]

/-! ### Lemmas: `filter` -/

/-- In the pre-order address list, no later entry is an ancestor-or-self
of an earlier one: ancestors always precede their descendants, and no
address repeats. -/
theorem pairwise_preAddrs (F : List (TNode α)) :
    List.Pairwise (fun x y : Addr => ¬ ∃ s : List Nat, x = y ++ s) (preAddrs F) := by
  match F with
  | [] => simp [preAddrs, paF]
  | (TNode.mk v cs) :: ts =>
    have ihc := pairwise_preAddrs cs
    have iht := pairwise_preAddrs ts
    rw [preAddrs_cons]
    rw [List.pairwise_append]
    refine ⟨?_, ?_, ?_⟩
    · rw [List.pairwise_cons]
      constructor
      · intro y hy
        rcases List.mem_map.mp hy with ⟨p, hp, rfl⟩
        have hpne := mem_preAddrs_ne_nil _ p hp
        rintro ⟨s, hs⟩
        have := congrArg List.length hs
        simp at this
        cases p with
        | nil => exact hpne rfl
        | cons i q => simp at this
      · rw [List.pairwise_map]
        refine ihc.imp ?_
        intro p q h
        rintro ⟨s, hs⟩
        rw [List.cons_append] at hs
        exact h ⟨s, by injection hs⟩
    · rw [List.pairwise_map]
      refine iht.imp_of_mem ?_
      intro p q hp hq h
      have hpne := mem_preAddrs_ne_nil _ p hp
      have hqne := mem_preAddrs_ne_nil _ q hq
      rintro ⟨s, hs⟩
      apply h
      cases p with
      | nil => exact absurd rfl hpne
      | cons i p' =>
        cases q with
        | nil => exact absurd rfl hqne
        | cons j q' =>
          refine ⟨s, ?_⟩
          show i :: p' = (j :: q') ++ s
          rw [show bumpHead (i :: p') = (i + 1) :: p' from rfl,
            show bumpHead (j :: q') = (j + 1) :: q' from rfl, List.cons_append] at hs
          injection hs with h1 h2
          rw [List.cons_append]
          rw [show i = j from by omega, h2]
    · intro x hx y hy
      rcases List.mem_map.mp hy with ⟨q, hq, rfl⟩
      have hqne := mem_preAddrs_ne_nil _ q hq
      cases q with
      | nil => exact absurd rfl hqne
      | cons j q' =>
        rintro ⟨s, hs⟩
        rw [show bumpHead (j :: q') = (j + 1) :: q' from rfl, List.cons_append] at hs
        rcases List.mem_cons.mp hx with rfl | hx'
        · injection hs with h1 h2
          omega
        · rcases List.mem_map.mp hx' with ⟨p, hp, rfl⟩
          have : (0 : Nat) = j + 1 := by injection hs
          omega
termination_by sizeF F
decreasing_by
  · simp; omega
  · have := sizeT_pos (TNode.mk v cs)
    simp only [sizeF_cons]
    omega

theorem not_mem_ancChain_nil : ∀ b : Addr, ([] : List Nat) ∉ ancChain b := by
  intro b
  match b with
  | [] => simp [ancChain]
  | [i] => simp [ancChain]
  | i :: j :: rest =>
    rw [ancChain]
    intro h
    rcases List.mem_cons.mp h with heq | h'
    · have := congrArg List.length heq
      simp at this
    · exact not_mem_ancChain_nil ((i :: j :: rest).dropLast) h'
termination_by b => b.length
decreasing_by
  simp [List.length_dropLast]

/-- `ancChain b` lists exactly the nonempty strict ancestors of `b`. -/
theorem mem_ancChain : ∀ (b x : Addr),
    x ∈ ancChain b ↔ (x ≠ [] ∧ ∃ s : List Nat, s ≠ [] ∧ b = x ++ s) := by
  intro b
  match b with
  | [] =>
    intro x
    rw [ancChain]
    simp only [List.not_mem_nil, false_iff, not_and]
    intro hx
    rintro ⟨s, hs, heq⟩
    have h1 := congrArg List.length heq
    rw [List.length_append] at h1
    have h2 := List.length_pos.mpr hs
    simp at h1
    omega
  | [i] =>
    intro x
    simp [ancChain]
    rintro hx s hs heq
    have := congrArg List.length heq
    have hx1 : 0 < x.length := List.length_pos.mpr hx
    have hs1 : 0 < s.length := List.length_pos.mpr hs
    simp at this
    omega
  | i :: j :: rest =>
    intro x
    have hbne : (i :: j :: rest : Addr) ≠ [] := by simp
    have hsplit : (i :: j :: rest : Addr) =
        (i :: j :: rest).dropLast ++ [(i :: j :: rest).getLast hbne] :=
      (List.dropLast_append_getLast hbne).symm
    have hdne : ((i :: j :: rest : Addr)).dropLast ≠ [] := by
      rw [dropLast_cons_cons]
      simp
    rw [ancChain]
    constructor
    · intro h
      rcases List.mem_cons.mp h with rfl | h'
      · exact ⟨hdne, [(i :: j :: rest).getLast hbne], by simp, hsplit⟩
      · rcases (mem_ancChain ((i :: j :: rest).dropLast) x).mp h' with ⟨hxne, s, hsne, heq⟩
        refine ⟨hxne, s ++ [(i :: j :: rest).getLast hbne], by simp, ?_⟩
        rw [← List.append_assoc, ← heq]
        exact hsplit
    · rintro ⟨hxne, s, hsne, heq⟩
      rcases List.eq_nil_or_concat s with rfl | ⟨s', a, rfl⟩
      · exact absurd rfl hsne
      · rw [List.concat_eq_append, ← List.append_assoc] at heq
        have hdl : (i :: j :: rest).dropLast = x ++ s' := by
          rw [heq, List.dropLast_concat]
        rcases List.eq_nil_or_concat s' with rfl | ⟨s'', c, rfl⟩
        · rw [List.append_nil] at hdl
          rw [← hdl]
          exact List.mem_cons_self _ _
        · rw [List.concat_eq_append] at hdl
          apply List.mem_cons_of_mem
          rw [hdl]
          exact (mem_ancChain (x ++ (s'' ++ [c])) x).mpr
            ⟨hxne, s'' ++ [c], by simp, rfl⟩
termination_by b => b.length
decreasing_by
  · simp [List.length_dropLast]
  · have hlen := congrArg List.length hdl
    simp [List.length_dropLast] at hlen
    simp
    omega

theorem forceAnc_spec : ∀ (ps : List Addr) (vis : Addr → Bool) (x : Addr),
    forceAnc vis ps x = if x ∈ ps then true else vis x := by
  intro ps
  induction ps with
  | nil =>
    intro vis x
    simp [forceAnc]
  | cons p ps' ih =>
    intro vis x
    rw [forceAnc, ih]
    by_cases h1 : x ∈ ps'
    · rw [if_pos h1, if_pos (List.mem_cons_of_mem _ h1)]
    · rw [if_neg h1]
      by_cases h2 : x = p
      · rw [if_pos h2, if_pos (by rw [h2]; exact List.mem_cons_self _ _)]
      · rw [if_neg h2, if_neg (by
          intro hc
          rcases List.mem_cons.mp hc with hc1 | hc2
          · exact h2 hc1
          · exact h1 hc2)]

/-- The visibility a node should have at a stage of the filter loop:
its own predicate value, or a strict descendant already visited whose
predicate value was `true`. -/
def visTarget (comp : α → Bool) (F : List (TNode α)) (P : List Addr) (x : Addr) : Prop :=
  (∃ t, getAt F x = some t ∧ comp t.val = true) ∨
    ∃ d, d ∈ P ∧ strictDesc x d ∧ ∃ u, getAt F d = some u ∧ comp u.val = true

theorem b_not_in_own_ancChain (b : Addr) : b ∉ ancChain b := by
  intro h
  rcases (mem_ancChain b b).mp h with ⟨_, s, hsne, heq⟩
  have h1 := congrArg List.length heq
  rw [List.length_append] at h1
  have h2 := List.length_pos.mpr hsne
  omega

/-- Evaluation of one filter visit as a function of the old state. -/
theorem filter_visit_eval (comp : α → Bool) (F : List (TNode α)) (vis : Addr → Bool)
    (b : Addr) (tb : TNode α) (hgb : getAt F b = some tb) (x : Addr) :
    filter_visit comp F vis b x =
      if x = b then comp tb.val
      else if comp tb.val = true ∧ x ∈ ancChain b then true
      else vis x := by
  rw [filter_visit, hgb]
  dsimp only
  by_cases hv : comp tb.val = true
  · rw [if_pos hv, forceAnc_spec]
    by_cases hxb : x = b
    · rw [if_pos hxb, if_neg (by rw [hxb]; exact b_not_in_own_ancChain b), if_pos hxb]
    · rw [if_neg hxb]
      by_cases hanc : x ∈ ancChain b
      · have hcc : comp tb.val = true ∧ x ∈ ancChain b := ⟨hv, hanc⟩
        rw [if_pos hanc, if_pos hcc, if_neg hxb]
      · have hcc : ¬(comp tb.val = true ∧ x ∈ ancChain b) := fun hc => hanc hc.2
        rw [if_neg hanc, if_neg hxb, if_neg hcc]
  · rw [if_neg hv]
    by_cases hxb : x = b
    · rw [if_pos hxb, if_pos hxb]
    · have hcc : ¬(comp tb.val = true ∧ x ∈ ancChain b) := fun hc => hv hc.1
      rw [if_neg hxb, if_neg hxb, if_neg hcc]

theorem filter_fold_invariant (comp : α → Bool) (F : List (TNode α)) :
    ∀ (rem P : List Addr) (vis : Addr → Bool),
      preAddrs F = P ++ rem →
      (∀ x ∈ P, (vis x = true ↔ visTarget comp F P x)) →
      ∀ x ∈ P ++ rem,
        (rem.foldl (filter_visit comp F) vis x = true ↔
          visTarget comp F (P ++ rem) x) := by
  intro rem
  induction rem with
  | nil =>
    intro P vis heq hP x hx
    rw [List.append_nil] at hx
    rw [List.append_nil]
    exact hP x hx
  | cons b rem' ih =>
    intro P vis heq hP x hx
    show (rem'.foldl (filter_visit comp F) (filter_visit comp F vis b)) x = true ↔ _
    have hpair := pairwise_preAddrs F
    rw [heq] at hpair
    have hbmem : b ∈ preAddrs F := by
      rw [heq]
      exact List.mem_append_right _ (List.mem_cons_self _ _)
    have hbvalid : validAddr F b := (mem_preAddrs F b).mp hbmem
    obtain ⟨tb, hgb⟩ : ∃ tb, getAt F b = some tb := by
      rw [validAddr] at hbvalid
      cases hg : getAt F b with
      | none => rw [hg] at hbvalid; simp at hbvalid
      | some t => exact ⟨t, rfl⟩
    have hbne : b ≠ [] := by
      intro hc
      rw [hc] at hgb
      rw [show getAt F [] = none from rfl] at hgb
      simp at hgb
    have hPb : ∀ d ∈ P, ¬ ∃ s : List Nat, d = b ++ s := by
      intro d hd
      exact (List.pairwise_append.mp hpair).2.2 d hd b (List.mem_cons_self _ _)
    have hP' : ∀ y ∈ P ++ [b],
        (filter_visit comp F vis b y = true ↔ visTarget comp F (P ++ [b]) y) := by
      intro y hy
      rw [filter_visit_eval comp F vis b tb hgb]
      rcases List.mem_append.mp hy with hyP | hyb
      · have hyne : y ≠ [] := by
          have : y ∈ preAddrs F := by
            rw [heq]
            exact List.mem_append_left _ hyP
          exact mem_preAddrs_ne_nil F y this
        have hyb : y ≠ b := by
          intro hc
          exact hPb y hyP ⟨[], by rw [hc, List.append_nil]⟩
        rw [if_neg hyb]
        by_cases hcase : comp tb.val = true ∧ y ∈ ancChain b
        · rw [if_pos hcase]
          constructor
          · intro _
            right
            refine ⟨b, List.mem_append_right _ (List.mem_cons_self _ _), ?_, tb, hgb,
              hcase.1⟩
            rcases (mem_ancChain b y).mp hcase.2 with ⟨_, s, hsne, heq2⟩
            exact ⟨s, hsne, heq2⟩
          · intro _
            rfl
        · rw [if_neg hcase]
          rw [hP y hyP]
          constructor
          · rintro (h1 | ⟨d, hd, h3, h4⟩)
            · exact Or.inl h1
            · exact Or.inr ⟨d, List.mem_append_left _ hd, h3, h4⟩
          · rintro (h1 | ⟨d, hd, h3, u, hu, hcu⟩)
            · exact Or.inl h1
            · rcases List.mem_append.mp hd with hdP | hdb
              · exact Or.inr ⟨d, hdP, h3, u, hu, hcu⟩
              · exfalso
                have hdb2 : d = b := by simpa using hdb
                rw [hdb2] at hu
                rw [hgb] at hu
                injection hu with hu2
                apply hcase
                constructor
                · rw [hu2]
                  exact hcu
                · rcases h3 with ⟨s, hsne, hseq⟩
                  rw [hdb2] at hseq
                  exact (mem_ancChain b y).mpr ⟨hyne, s, hsne, hseq⟩
      · have hyb2 : y = b := by simpa using hyb
        rw [if_pos hyb2]
        constructor
        · intro hcv
          exact Or.inl ⟨tb, by rw [hyb2]; exact hgb, hcv⟩
        · rintro (⟨t, hgt, hct⟩ | ⟨d, hd, ⟨s, hsne, hseq⟩, u, hu, hcu⟩)
          · rw [hyb2, hgb] at hgt
            injection hgt with hgt2
            rw [hgt2]
            exact hct
          · exfalso
            rcases List.mem_append.mp hd with hdP | hdb
            · exact hPb d hdP ⟨s, by rw [hseq, hyb2]⟩
            · have hdb2 : d = b := by simpa using hdb
              rw [hdb2, hyb2] at hseq
              have hl := congrArg List.length hseq
              rw [List.length_append] at hl
              have hs := List.length_pos.mpr hsne
              omega
    have hx2 : x ∈ (P ++ [b]) ++ rem' := by
      rw [List.append_assoc]
      simpa using hx
    have := ih (P ++ [b]) (filter_visit comp F vis b)
      (by rw [heq, List.append_assoc]; rfl) hP' x hx2
    rw [show (P ++ [b]) ++ rem' = P ++ b :: rem' from by
      rw [List.append_assoc]; rfl] at this
    exact this

/-- Characterisation of the visibility map after `tree::filter`: a valid
node is visible iff the predicate holds on it, or it has a proper
descendant on which the predicate holds. -/
theorem tree_filter_spec (comp : α → Bool) (F : List (TNode α)) (vis0 : Addr → Bool)
    (x : Addr) (hx : validAddr F x) :
    tree_filter comp F vis0 x = true ↔
      (∃ t, getAt F x = some t ∧ comp t.val = true) ∨
      ∃ d, validAddr F d ∧ strictDesc x d ∧
        ∃ u, getAt F d = some u ∧ comp u.val = true := by
  have hmem : x ∈ preAddrs F := (mem_preAddrs F x).mpr hx
  have h := filter_fold_invariant comp F (preAddrs F) [] vis0 rfl
    (by intro y hy; simp at hy) x (by simpa using hmem)
  rw [tree_filter, h]
  simp only [visTarget, List.nil_append]
  constructor
  · rintro (h1 | ⟨d, hd, h2, h3⟩)
    · exact Or.inl h1
    · exact Or.inr ⟨d, (mem_preAddrs F d).mp hd, h2, h3⟩
  · rintro (h1 | ⟨d, hd, h2, h3⟩)
    · exact Or.inl h1
    · exact Or.inr ⟨d, (mem_preAddrs F d).mpr hd, h2, h3⟩

/-- Reaching the comparison target ends the `equal` loop with `true`. -/
theorem equalAux_at_target (F₁ F₂ : List (TNode α)) (fn : α → α → Bool)
    (tgt : Option Addr) (fuel : Nat) :
    equalAux F₁ F₂ fn tgt (fuel + 1) tgt tgt = some true := by
  have h : equalAux F₁ F₂ fn tgt (fuel + 1) tgt tgt =
      if tgt = tgt then some true
      else if tgt = none then some true
      else
        match tgt, tgt with
        | some a1, some a3 =>
          match getAt F₁ a1, getAt F₂ a3 with
          | some t1, some t3 =>
            if fn t1.val t3.val = false then some false
            else if t1.children.length ≠ t3.children.length then some false
            else equalAux F₁ F₂ fn tgt fuel (preInc F₁ a1) (preInc F₂ a3)
          | _, _ => none
        | _, _ => none := rfl
  rw [h, if_pos rfl]

/-! ## The claims -/

/-- Claim C1 (confirmed): for every tree, every node `top ++ rest` in it
and every valid ancestor `top` of that node, encoding the node as a path
relative to `top` and decoding the path again returns exactly the same
node. -/
theorem C1_path_round_trip (F : List (TNode α)) (top rest : Addr) (htop : top ≠ [])
    (hv : validAddr F (top ++ rest)) :
    iterator_from_path F (path_from_iterator F (top ++ rest) top) top =
      .ok (.addr (top ++ rest)) :=
  round_trip_core F top rest htop hv

theorem C1_path_round_trip_witness :
    ([0] : Addr) ≠ [] ∧
    validAddr [TNode.mk (0 : Nat) [TNode.mk 1 [], TNode.mk 2 []]] ([0] ++ [1]) ∧
    iterator_from_path [TNode.mk (0 : Nat) [TNode.mk 1 [], TNode.mk 2 []]]
      (path_from_iterator [TNode.mk (0 : Nat) [TNode.mk 1 [], TNode.mk 2 []]]
        ([0] ++ [1]) [0]) [0] = .ok (.addr ([0] ++ [1])) :=
  ⟨by decide, by decide,
    C1_path_round_trip [TNode.mk (0 : Nat) [TNode.mk 1 [], TNode.mk 2 []]] [0] [1]
      (by decide) (by decide)⟩

/-- Claim C2 (code_bug): the spec requires the bookkeeping invariant
(`count` = number of proper descendants on every node, `head->count` =
total) to hold after every public operation, `prepend_child` included;
but `tree::prepend_child(position, x)` contains no bookkeeping block, so
a single `prepend_child` on a tree that satisfies the invariant (here:
built by `insert`) leaves a tree that violates it. -/
theorem C2_prepend_child_breaks_bookkeeping :
    countOK (tree_insert (⟨[], 0⟩ : TreeState Nat) .feetIt 7).1 = true ∧
    countOK (prepend_child (tree_insert (⟨[], 0⟩ : TreeState Nat) .feetIt 7).1 [0] 9) =
      false :=
  ⟨rfl, rfl⟩

/-- Claim C3 (confirmed): on a tree whose bookkeeping invariant holds,
`size()` (which returns `head->count`) equals the number of
`pre_order_iterator::operator++` steps from `begin()` to `end()`. -/
theorem C3_size_counts_preorder_steps (S : TreeState α) (h : countOK S = true)
    (fuel : Nat) (hfuel : tree_size S ≤ fuel) :
    countSteps S.roots fuel (beginRef S.roots) = tree_size S := by
  have h2 : S.headCount = sizeF S.roots := by
    rw [countOK, Bool.and_eq_true] at h
    have h3 := h.2
    simp at h3
    exact h3
  rw [tree_size] at hfuel ⊢
  rw [h2] at hfuel ⊢
  exact countSteps_begin S.roots fuel hfuel

theorem C3_size_counts_preorder_steps_witness :
    countOK (⟨[TNode.mk ((0 : Nat), 1) [TNode.mk (1, 0) []]], 2⟩ : TreeState Nat) = true ∧
    countSteps [TNode.mk ((0 : Nat), 1) [TNode.mk (1, 0) []]] 2
      (beginRef [TNode.mk ((0 : Nat), 1) [TNode.mk (1, 0) []]]) = 2 :=
  ⟨by decide,
    C3_size_counts_preorder_steps
      (⟨[TNode.mk ((0 : Nat), 1) [TNode.mk (1, 0) []]], 2⟩ : TreeState Nat)
      (by decide) 2 (by decide)⟩

/-- Claim C4 (confirmed): sorting a sibling range with a strict weak
ordering rearranges exactly the nodes of the range (a permutation of
whole nodes, so each keeps its own child list), the result is sorted by
the ordering on values, the sort is stable (the subsequence of nodes
equivalent to any fixed node is unchanged), and the flanking siblings
`pre`/`post` are reattached unchanged around the sorted range. -/
theorem C4_sort_stable_sorted (cmp : β → β → Bool)
    (hasym : ∀ a b : β, cmp a b = true → cmp b a = false)
    (htrans : ∀ a b c : β, cmp a b = true → cmp b c = true → cmp a c = true)
    (hinc : ∀ a b c : β, equivB cmp a b = true → equivB cmp b c = true →
      equivB cmp a c = true)
    (pre mid post : List (TNode β)) :
    ∃ mid' : List (TNode β),
      tree_sort cmp pre mid post = pre ++ mid' ++ post ∧
      mid'.Perm mid ∧
      SortedB (compare_nodes cmp) mid' ∧
      ∀ v : TNode β,
        mid'.filter (fun y => equivB (compare_nodes cmp) v y) =
          mid.filter (fun y => equivB (compare_nodes cmp) v y) := by
  refine ⟨msort (compare_nodes cmp) mid, rfl, msort_perm _ _, ?_, ?_⟩
  · exact msort_sorted (compare_nodes cmp)
      (fun a b h => hasym a.val b.val h)
      (fun a b c h1 h2 => htrans a.val b.val c.val h1 h2) mid
  · intro v
    exact msort_filter (compare_nodes cmp)
      (fun a b h => hasym a.val b.val h)
      (fun a b c h1 h2 => htrans a.val b.val c.val h1 h2)
      (fun a b c h1 h2 => hinc a.val b.val c.val h1 h2) v mid

theorem C4_sort_stable_sorted_witness :
    (∀ a b : Bool, (!a && b) = true → (!b && a) = false) ∧
    ∃ mid' : List (TNode Bool),
      tree_sort (fun a b => !a && b) [] [TNode.mk true [], TNode.mk false []] [] =
        [] ++ mid' ++ [] ∧
      mid'.Perm [TNode.mk true [], TNode.mk false []] ∧
      SortedB (compare_nodes fun a b => !a && b) mid' ∧
      ∀ v : TNode Bool,
        mid'.filter (fun y => equivB (compare_nodes fun a b => !a && b) v y) =
          [TNode.mk true [], TNode.mk false []].filter
            (fun y => equivB (compare_nodes fun a b => !a && b) v y) :=
  ⟨by decide,
    C4_sort_stable_sorted (fun a b => !a && b) (by decide) (by decide) (by decide)
      [] [TNode.mk true [], TNode.mk false []] []⟩

/-- Claim C5 (code_bug): on a tree `[A, D:[F,G], B]` that satisfies the
bookkeeping invariant with `size() = 5`, `move_out` on `D` does link
`A` and `B` directly and hands the three nodes `D, F, G` to the fresh
tree — but the fresh tree's `size()` is `0` (its `head->count` is the
`head_initialise_` value, never updated) instead of the claimed `3`, and
the original tree's `size()` stays `5` (no `count` is decremented)
instead of decreasing by 3 to `2`. -/
theorem C5_move_out_sizes :
    countOK (⟨[TNode.mk ((1 : Nat), 0) [],
        TNode.mk (4, 2) [TNode.mk (6, 0) [], TNode.mk (7, 0) []],
        TNode.mk (2, 0) []], 5⟩ : TreeState Nat) = true ∧
    (move_out (⟨[TNode.mk ((1 : Nat), 0) [],
        TNode.mk (4, 2) [TNode.mk (6, 0) [], TNode.mk (7, 0) []],
        TNode.mk (2, 0) []], 5⟩ : TreeState Nat) 1).1.roots =
      [TNode.mk (1, 0) [], TNode.mk (2, 0) []] ∧
    sizeF (move_out (⟨[TNode.mk ((1 : Nat), 0) [],
        TNode.mk (4, 2) [TNode.mk (6, 0) [], TNode.mk (7, 0) []],
        TNode.mk (2, 0) []], 5⟩ : TreeState Nat) 1).2.roots = 3 ∧
    tree_size (move_out (⟨[TNode.mk ((1 : Nat), 0) [],
        TNode.mk (4, 2) [TNode.mk (6, 0) [], TNode.mk (7, 0) []],
        TNode.mk (2, 0) []], 5⟩ : TreeState Nat) 1).2 = 0 ∧
    tree_size (move_out (⟨[TNode.mk ((1 : Nat), 0) [],
        TNode.mk (4, 2) [TNode.mk (6, 0) [], TNode.mk (7, 0) []],
        TNode.mk (2, 0) []], 5⟩ : TreeState Nat) 1).1 = 5 :=
  ⟨rfl, rfl, rfl, rfl, rfl⟩

/-- Claim C6 counterexample: the claim, as stated, fails on
`tree::child`.  On a childless node, `child(pos, 0)` asks for more
children than exist yet returns the null sibling iterator with no error
of any kind (it silently runs off the edge), and `child(pos, 1)` fires
an `assert` — a fatal abort, not the distinguishable catchable
out-of-range error the claim requires (`assertFail ≠ rangeErr`). -/
theorem C6_counterexample :
    tree_child [TNode.mk (0 : Nat) []] [0] 0 = .ok none ∧
    tree_child [TNode.mk (0 : Nat) []] [0] 1 = .error .assertFail ∧
    TreeErr.assertFail ≠ TreeErr.rangeErr :=
  ⟨rfl, rfl, by decide⟩

/-- Claim C6 (corrected): out-of-range navigation behaves per entry
point.  `child(position, num)` never throws a catchable error: an
in-range `num` yields the child, `num` equal to the child count silently
yields the null sibling iterator, and a larger `num` fires an `assert`
(fatal abort).  `iterator_from_path` with an oversized sibling step
below the top level, and `move_in_as_nth_child` of a nonempty tree with
`n` exceeding the destination child count, do throw the catchable
`std::range_error` and never clamp. -/
theorem C6_out_of_range_behaviour (F : List (TNode α)) (top : Addr) (t : TNode α)
    (htop : top ≠ []) (hg : getAt F top = some t) (k : Nat)
    (hk : t.children.length ≤ k)
    (S : TreeState α) (loc : Addr) (u : TNode (α × Nat))
    (hgu : getAt S.roots loc = some u) (other : TreeState α)
    (hne : other.roots ≠ []) (n : Nat) (hn : u.children.length < n) :
    tree_child F top t.children.length = .ok none ∧
    (t.children.length < k → tree_child F top k = .error .assertFail) ∧
    iterator_from_path F [0, k] top = .error .rangeErr ∧
    move_in_as_nth_child S loc n other = .error .rangeErr := by
  refine ⟨?_, ?_, ?_, ?_⟩
  · rw [tree_child_spec F top t hg, if_neg (by omega), if_pos rfl]
  · intro hlt
    rw [tree_child_spec F top t hg, if_neg (by omega), if_neg (by omega)]
  · exact ifp_oversized F top t htop hg k hk
  · exact (move_in_as_nth_child_spec S loc u hgu n other hne).1 hn

theorem C6_out_of_range_behaviour_witness :
    getAt [TNode.mk (0 : Nat) [TNode.mk 1 []]] [0] =
      some (TNode.mk 0 [TNode.mk 1 []]) ∧
    (TNode.mk (0 : Nat) [TNode.mk 1 []]).children.length ≤ 2 ∧
    (tree_child [TNode.mk (0 : Nat) [TNode.mk 1 []]] [0]
        (TNode.mk (0 : Nat) [TNode.mk 1 []]).children.length = .ok none ∧
      ((TNode.mk (0 : Nat) [TNode.mk 1 []]).children.length < 2 →
        tree_child [TNode.mk (0 : Nat) [TNode.mk 1 []]] [0] 2 = .error .assertFail) ∧
      iterator_from_path [TNode.mk (0 : Nat) [TNode.mk 1 []]] [0, 2] [0] =
        .error .rangeErr ∧
      move_in_as_nth_child
        (⟨[TNode.mk ((0 : Nat), 1) [TNode.mk (1, 0) []]], 2⟩ : TreeState Nat) [0] 2
        (⟨[TNode.mk ((5 : Nat), 0) []], 1⟩ : TreeState Nat) = .error .rangeErr) :=
  ⟨rfl, by decide,
    C6_out_of_range_behaviour [TNode.mk (0 : Nat) [TNode.mk 1 []]] [0]
      (TNode.mk 0 [TNode.mk 1 []]) (by decide) rfl 2 (by decide)
      (⟨[TNode.mk ((0 : Nat), 1) [TNode.mk (1, 0) []]], 2⟩ : TreeState Nat) [0]
      (TNode.mk (0, 1) [TNode.mk (1, 0) []]) rfl
      (⟨[TNode.mk ((5 : Nat), 0) []], 1⟩ : TreeState Nat) (by simp) 2 (by decide)⟩

/-- Claim C7 (code_bug): the claim (and spec) promise that the empty
tree is the only case where whole-tree `max_depth()` returns the
sentinel `(size_t)-1 = 2^64 - 1`, and a non-empty tree returns its
actual maximal depth.  The code initialises `size_t maxd = -1` and folds
with `std::max`, so the sentinel absorbs every per-root depth and
whole-tree `max_depth()` returns `2^64 - 1` on every tree; the per-node
`max_depth(it)` does compute real depths (depth 2 here, and 0 for a
childless node — not a negative "no descendant" marker). -/
theorem C7_max_depth_always_sentinel :
    max_depth_tree ([] : List (TNode Nat)) = some (2 ^ 64 - 1) ∧
    max_depth_tree [TNode.mk (0 : Nat) [TNode.mk 1 [TNode.mk 2 []]]] =
      some (2 ^ 64 - 1) ∧
    max_depth_node [TNode.mk (0 : Nat) [TNode.mk 1 [TNode.mk 2 []]]] [0] = some 2 ∧
    max_depth_node [TNode.mk (0 : Nat) []] [0] = some 0 :=
  ⟨rfl, by decide, by decide, rfl⟩

/-- Claim C8 (confirmed): after `filter(predicate)` the visibility of
every node is determined by one predicate evaluation per node plus the
ancestor forcing: a valid node is visible iff the predicate holds on it
or some proper descendant of it satisfies the predicate (the ancestor
chain of every visible node is forced visible regardless of the
predicate's value there); consequently a visible descendant never has an
invisible ancestor. -/
theorem C8_filter_visibility (comp : α → Bool) (F : List (TNode α)) (vis0 : Addr → Bool)
    (x : Addr) (hx : validAddr F x) :
    (tree_filter comp F vis0 x = true ↔
      (∃ t, getAt F x = some t ∧ comp t.val = true) ∨
      ∃ d, validAddr F d ∧ strictDesc x d ∧
        ∃ u, getAt F d = some u ∧ comp u.val = true) ∧
    ∀ d, validAddr F d → strictDesc x d → tree_filter comp F vis0 d = true →
      tree_filter comp F vis0 x = true := by
  constructor
  · exact tree_filter_spec comp F vis0 x hx
  · intro d hd hdesc hvisd
    have h1 := (tree_filter_spec comp F vis0 d hd).mp hvisd
    apply (tree_filter_spec comp F vis0 x hx).mpr
    rcases h1 with ⟨u, hgu, hcu⟩ | ⟨e, hve, ⟨s2, hs2, he⟩, w, hgw, hcw⟩
    · exact Or.inr ⟨d, hd, hdesc, u, hgu, hcu⟩
    · rcases hdesc with ⟨s1, hs1, hd1⟩
      refine Or.inr ⟨e, hve, ⟨s1 ++ s2, ?_, ?_⟩, w, hgw, hcw⟩
      · intro hc
        exact hs1 (List.append_eq_nil.mp hc).1
      · rw [he, hd1, List.append_assoc]

theorem C8_filter_visibility_witness :
    validAddr [TNode.mk (5 : Nat) [TNode.mk 3 []]] [0] ∧
    ((tree_filter (fun v => v == 3) [TNode.mk (5 : Nat) [TNode.mk 3 []]]
          (fun _ => false) [0] = true ↔
        (∃ t, getAt [TNode.mk (5 : Nat) [TNode.mk 3 []]] [0] = some t ∧
          (t.val == 3) = true) ∨
        ∃ d, validAddr [TNode.mk (5 : Nat) [TNode.mk 3 []]] d ∧ strictDesc [0] d ∧
          ∃ u, getAt [TNode.mk (5 : Nat) [TNode.mk 3 []]] d = some u ∧
            (u.val == 3) = true) ∧
      ∀ d, validAddr [TNode.mk (5 : Nat) [TNode.mk 3 []]] d → strictDesc [0] d →
        tree_filter (fun v => v == 3) [TNode.mk (5 : Nat) [TNode.mk 3 []]]
          (fun _ => false) d = true →
        tree_filter (fun v => v == 3) [TNode.mk (5 : Nat) [TNode.mk 3 []]]
          (fun _ => false) [0] = true) :=
  ⟨by decide,
    C8_filter_visibility (fun v => v == 3) [TNode.mk (5 : Nat) [TNode.mk 3 []]]
      (fun _ => false) [0] (by decide)⟩

/-- Claim C9 (confirmed): for every valid node `a` and every comparator
that is reflexive, `equal_subtree(a, a, comparator)` returns `true` (the
lock-step walk of the two identical pre-order ranges never finds a
difference and terminates at the subtree boundary). -/
theorem C9_equal_subtree_refl (F : List (TNode α)) (fn : α → α → Bool)
    (href : ∀ x : α, fn x x = true) (a : Addr) (hv : validAddr F a) :
    equal_subtree F F fn a a = some true := by
  obtain ⟨t, hg⟩ : ∃ t, getAt F a = some t := by
    rw [validAddr] at hv
    cases hgg : getAt F a with
    | none => rw [hgg] at hv; simp at hv
    | some u => exact ⟨u, rfl⟩
  rw [equal_subtree, hg]
  dsimp only
  rw [if_neg (by rw [href t.val]; simp), if_neg (by simp)]
  rw [beginChildren]
  by_cases hc : 0 < childCount F a
  · rw [if_pos hc]
    have hvc : validAddr F (a ++ [0]) := by
      apply validAddr_append_zero F a t hg
      rw [childCount, hg] at hc
      exact hc
    have hmem : a ++ [0] ∈ preAddrs F := (mem_preAddrs F (a ++ [0])).mpr hvc
    have hch := chain_preAddrs F
    apply equalAux_lockstep F fn href (preAddrs F) hch.1 hch.2
      (fun x hx => (mem_preAddrs F x).mp hx) (a ++ [0]) hmem (climbNext F a)
      (sizeF F + 2) (by rw [length_preAddrs]; omega)
  · rw [if_neg hc]
    show equalAux F F fn (climbNext F a) (sizeF F + 1 + 1) (climbNext F a)
      (climbNext F a) = some true
    exact equalAux_at_target F F fn (climbNext F a) (sizeF F + 1)

theorem C9_equal_subtree_refl_witness :
    (∀ x : Nat, (fun _ _ : Nat => true) x x = true) ∧
    validAddr [TNode.mk (0 : Nat) [TNode.mk 1 []]] [0] ∧
    equal_subtree [TNode.mk (0 : Nat) [TNode.mk 1 []]]
      [TNode.mk (0 : Nat) [TNode.mk 1 []]] (fun _ _ => true) [0] [0] = some true :=
  ⟨fun _ => rfl, by decide,
    C9_equal_subtree_refl [TNode.mk (0 : Nat) [TNode.mk 1 []]] (fun _ _ => true)
      (fun _ => rfl) [0] (by decide)⟩

/-- Claim C10 (confirmed): `insert(position, x)` on a null
(default-constructed) iterator does not abort: the null position is
re-pointed at the `feet` sentinel, so the call behaves exactly like
inserting before `feet` — the new node becomes the last top-level root
and the returned iterator points at it (a valid node address). -/
theorem C10_insert_on_null_iterator (S : TreeState α) (x : α) :
    tree_insert S .nullIt x = tree_insert S .feetIt x ∧
    (tree_insert S .nullIt x).1.roots = S.roots ++ [newNode x] ∧
    (tree_insert S .nullIt x).1.headCount = S.headCount + 1 ∧
    (tree_insert S .nullIt x).2 = [S.roots.length] ∧
    validAddr (tree_insert S .nullIt x).1.roots (tree_insert S .nullIt x).2 := by
  refine ⟨rfl, rfl, rfl, rfl, ?_⟩
  show validAddr (S.roots ++ [newNode x]) [S.roots.length]
  rw [validAddr_singleton]
  simp

end TreeHH
